import Mathlib

/-!
# CRAX / S2E: test-case trace payload codec and function-call monitor

A verification development over a shallow embedding of two source files:

* `qemu/s2e/Plugins/ExecutionTracers/TraceEntries.h`
  (`ExecutionTraceTestCase::serialize` / `deserialize`);
* `qemu/s2e/Plugins/FunctionMonitor.cpp`
  (`getCallSignal`, `slotCall`, `slotRet`).

Conventions of the embedding.

* A byte (`uint8_t`, `unsigned char`, `char`) is a `Fin 256`.  The casts
  `(char) *a` followed by storage into a `std::string` or a
  `std::vector<unsigned char>` keep the eight bits, so they are the identity.
* `unsigned` and `uint32_t` are naturals reduced `% 2^32`; `size_t` is a
  natural reduced `% 2^64` (LP64 host).  The host is little-endian (x86).
* A pointer into a buffer is the list of bytes from the pointee to the end of
  the buffer; dereferencing the empty list is a read past the buffer bound.
* Addresses, stack pointers and page-directory values (`target_ulong`,
  `uint64_t`) are only compared, never computed with, and are naturals.
-/

/-! ## Part I: the test-case payload (TraceEntries.h, lines 128-182) -/

namespace ExecutionTraceTestCase

/-- One byte of a buffer, a string or a data vector. -/
abbrev Byte := Fin 256

/-- Source type `VarValuePair`: `std::pair<std::string, std::vector<unsigned char>>`. -/
abbrev VarValuePair := List Byte × List Byte

/-- Source type `ConcreteInputs`: `std::vector<VarValuePair>`. -/
abbrev ConcreteInputs := List VarValuePair

/-- Conversion to `unsigned` / `uint32_t`. -/
def toU32 (n : Nat) : Nat := n % 2 ^ 32

/-- The four bytes a little-endian host stores for a `uint32_t` field. -/
def storeU32 (n : Nat) : List Byte :=
  [Fin.ofNat n, Fin.ofNat (n / 2 ^ 8), Fin.ofNat (n / 2 ^ 16), Fin.ofNat (n / 2 ^ 24)]

/-- The `uint32_t` a little-endian host loads from four consecutive bytes. -/
def loadU32 (b0 b1 b2 b3 : Byte) : Nat :=
  b0.val + 2 ^ 8 * b1.val + 2 ^ 16 * b2.val + 2 ^ 24 * b3.val

/-- The value of `sizeof(Header)`: two packed `uint32_t` fields. -/
def sizeofHeader : Nat := 8

/-- First loop of `serialize` (lines 139-141): `bufsize` is an `unsigned`
accumulator, so every `+=` is reduced modulo `2^32`. -/
def serializeBufsize : ConcreteInputs → Nat → Nat
  | [], bufsize => bufsize
  | it :: rest, bufsize =>
    serializeBufsize rest (toU32 (bufsize + (sizeofHeader + it.1.length + it.2.length)))

/-- Second loop of `serialize` (lines 146-155): the bytes stored through the
cursor `a`, in order.  For each pair: the header
`{(uint32_t) first.size(), (uint32_t) second.size()}` (line 147-148), the name
bytes (`memcpy`, line 150), and the data bytes (loop of lines 152-154, one
store per element; its `unsigned` counter equals the element index for data
shorter than `2^32` bytes). -/
def serializeWrite : ConcreteInputs → List Byte
  | [] => []
  | it :: rest =>
    storeU32 (toU32 it.1.length) ++ storeU32 (toU32 it.2.length) ++ it.1 ++ it.2
      ++ serializeWrite rest

/-- Result of `serialize`: the value stored in `*size` and the bytes written
from the start of the returned buffer.  The buffer is allocated with `size`
bytes (line 143); `buf.length` exceeds `size` exactly when the 32-bit size
computation wrapped. -/
structure Serialized where
  size : Nat
  buf : List Byte
deriving DecidableEq, Repr

/-- Source function `ExecutionTraceTestCase::serialize` (lines 136-158). -/
def serialize (inputs : ConcreteInputs) : Serialized :=
  { size := serializeBufsize inputs 0, buf := serializeWrite inputs }

/-- How a run of `deserialize` ends.  The function returns `void` and has no
error path; `readPastEnd` is not a result the code produces but the point at
which a run dereferences a byte outside the buffer (undefined behaviour), with
the contents of `out` at that moment.  `outOfFuel` only bounds the model. -/
inductive DecodeRun where
  | returned (out : ConcreteInputs)
  | readPastEnd (out : ConcreteInputs)
  | outOfFuel
deriving DecidableEq, Repr

/-- The two `for` loops of `deserialize` (lines 168-170 and 171-173): `n`
iterations, each reading `*a`, appending it, advancing `a` and decrementing the
`size_t` counter `buflen`.  The error case is a read past the end of the
buffer and carries the bytes appended so far. -/
def readLoop : Nat → List Byte → Nat → List Byte → Except (List Byte) (List Byte × List Byte × Nat)
  | 0, a, buflen, acc => .ok (acc, a, buflen)
  | _ + 1, [], _, acc => .error acc
  | n + 1, b :: a, buflen, acc => readLoop n a ((buflen + (2 ^ 64 - 1)) % 2 ^ 64) (acc ++ [b])

/-- The `while (buflen > 0)` loop of `deserialize` (lines 162-174).  Each
iteration takes the header at `a`, advances `a` and decrements `buflen` by
`sizeof(Header)` (modulo `2^64`), pushes an empty pair on `out`, then fills
the pair with `nameSize` name bytes and `dataSize` data bytes. -/
def deserializeLoop : Nat → List Byte → Nat → ConcreteInputs → DecodeRun
  | 0, _, _, _ => .outOfFuel
  | fuel + 1, a, buflen, out =>
    if 0 < buflen then
      match a with
      | b0 :: b1 :: b2 :: b3 :: b4 :: b5 :: b6 :: b7 :: a1 =>
        match readLoop (loadU32 b0 b1 b2 b3) a1 ((buflen + (2 ^ 64 - sizeofHeader)) % 2 ^ 64) [] with
        | .error name => .readPastEnd (out ++ [(name, [])])
        | .ok (name, a2, buflen2) =>
          match readLoop (loadU32 b4 b5 b6 b7) a2 buflen2 [] with
          | .error data => .readPastEnd (out ++ [(name, data)])
          | .ok (data, a3, buflen3) => deserializeLoop fuel a3 buflen3 (out ++ [(name, data)])
      | _ => .readPastEnd (out ++ [([], [])])
    else .returned out

/-- Source function `ExecutionTraceTestCase::deserialize` (lines 160-175), on
the buffer `buf`, the declared length `buflen` and the output list `out`.
`fuel` bounds the number of iterations of the `while` loop. -/
def deserialize (fuel : Nat) (buf : List Byte) (buflen : Nat) (out : ConcreteInputs) : DecodeRun :=
  deserializeLoop fuel buf (buflen % 2 ^ 64) out

/-- The encoded size of a list of pairs: `sizeof(Header)` plus the two
lengths, summed over the pairs, as an unbounded natural. -/
def encodedSize : ConcreteInputs → Nat
  | [] => 0
  | it :: rest => sizeofHeader + it.1.length + it.2.length + encodedSize rest

/-- The number a sequence of bytes denotes when read least significant byte
first. -/
def littleEndian : List Byte → Nat
  | [] => 0
  | b :: bs => b.val + 2 ^ 8 * littleEndian bs

/-- The tuple of one pair in the words of the spec: the 32-bit name length, the
32-bit data length, the name bytes, the data bytes. -/
def tupleOf (it : VarValuePair) : List Byte :=
  storeU32 it.1.length ++ storeU32 it.2.length ++ it.1 ++ it.2

end ExecutionTraceTestCase

/-! ## Part I, continued: the cache-simulation name record (TraceEntries.h, lines 85-110) -/

namespace ExecutionTraceCacheSimName

open ExecutionTraceTestCase

/-- The value of `sizeof(ExecutionTraceCacheSimName)` for the packed structure:
`uint8_t type`, `uint32_t id`, `uint32_t length`, `uint8_t name[1]`. -/
def sizeofRecord : Nat := 10

/-- The enumerator `CACHE_NAME` of `CacheSimDescType` (line 72). -/
def CACHE_NAME : Nat := 1

/-- What `allocate` produces: the fields of the record it fills, the bytes
`strcpy` stores from `name` on, and the value it stores in `*retsize`. -/
structure Allocated where
  type : Nat
  id : Nat
  length : Nat
  name : List Byte
  retsize : Nat
deriving DecidableEq, Repr

/-- Source function `ExecutionTraceCacheSimName::allocate` (lines 93-105).
`size` is an `unsigned`, so the sum of line 95 is reduced modulo `2^32`;
`strcpy` copies the bytes of `str` up to its first zero byte and a terminating
zero; there is no check of `size`. -/
def allocate (id : Nat) (str : List Byte) : Allocated :=
  let size := toU32 (sizeofRecord + str.length)
  { type := CACHE_NAME,
    id := toU32 id,
    length := toU32 str.length,
    name := str.takeWhile (fun b => b ≠ 0) ++ [0],
    retsize := size }

/-- The largest value of the `uint8_t size` field of `ExecutionTraceItemHeader`
(line 29). -/
def maxPayloadSize : Nat := 255

end ExecutionTraceCacheSimName

/-! ## Part II: the function monitor (FunctionMonitor.cpp) -/

namespace FunctionMonitor

/-- Modelled from the spec: the containers `CallDescriptorsMap` and
`ReturnDescriptorsMap` are declared in `FunctionMonitor.h`, which is not among
the sources; the code uses them through `equal_range`, `insert` and `erase`,
and the spec (section 9) names them non-unique multimaps whose iteration
keeps insertion order among equal keys.  A multimap is the list of its
(key, value) entries in iteration order. -/
abbrev Multimap (α : Type) := List (Nat × α)

/-- The effect of `std::multimap::insert`: the new entry goes after every entry
whose key is not greater (the upper bound of its key). -/
def Multimap.insert {α : Type} (k : Nat) (v : α) : Multimap α → Multimap α
  | [] => [(k, v)]
  | e :: rest => if e.1 ≤ k then e :: Multimap.insert k v rest else (k, v) :: e :: rest

/-- The values visited by iterating over `std::multimap::equal_range(k)`: the
entries of key `k`, in iteration order. -/
def Multimap.equal_range {α : Type} (k : Nat) (m : Multimap α) : List α :=
  (m.filter (fun e => e.1 = k)).map (fun e => e.2)

/-- The part of an `S2EExecutionState` the monitor looks at: the identity of
the state object (the pointer compared at line 135), the registers read with
`readCpuState` (`cr[3]` and `eip`), and the result of
`readCpuRegisterConcrete` on `regs[R_ESP]`, which is `none` when the register
is symbolic (the call returns `false`). -/
structure S2EExecutionState where
  id : Nat
  cr3 : Nat
  eip : Nat
  esp : Option Nat
deriving DecidableEq, Repr

/-- A `ReturnSignal`: the slots connected to it, in connection order, each
named by an identifier. -/
abbrev ReturnSignal := List Nat

/-- A slot connected to a `CallSignal`: its identifier, and what it does when
invoked with `(state, ReturnSignal*)`, namely the return slots it connects to
the return signal it is handed.  A slot is taken not to call back into the
monitor while it runs. -/
structure CallSlot where
  id : Nat
  run : S2EExecutionState → ReturnSignal

/-- A `CallSignal`: the slots connected to it, in connection order. -/
abbrev CallSignal := List CallSlot

/-- Source type `CallDescriptor`, as initialised at line 43: `{ cr3, CallSignal() }`. -/
structure CallDescriptor where
  cr3 : Nat
  signal : CallSignal

/-- Source type `ReturnDescriptor`, as initialised at lines 92 and 104:
`{ state, cr3, ReturnSignal() }`. -/
structure ReturnDescriptor where
  state : Nat
  cr3 : Nat
  signal : ReturnSignal
deriving DecidableEq, Repr

end FunctionMonitor

/-- The data members of the plugin class `FunctionMonitor` that the slot
functions use: the two registries. -/
structure FunctionMonitor where
  m_callDescriptors : FunctionMonitor.Multimap FunctionMonitor.CallDescriptor
  m_returnDescriptors : FunctionMonitor.Multimap FunctionMonitor.ReturnDescriptor

namespace FunctionMonitor

/-- What a run of a slot function makes observable: each invocation of a call
slot and of a return slot, and the two warnings written to the warnings stream
(with the `EIP` and `CR3` values they print). -/
inductive Notification where
  | call (slot : Nat)
  | ret (slot : Nat)
  | symbolicEspCall (eip cr3 : Nat)
  | symbolicEspRet (eip cr3 : Nat)
deriving DecidableEq, Repr

/-- The position of the first descriptor of key `eip` whose `cr3` field is
`cr3` (loop of lines 38-41), if there is one. -/
def findCallDescriptor (eip cr3 : Nat) : Multimap CallDescriptor → Option Nat
  | [] => none
  | e :: rest =>
    if e.1 = eip ∧ e.2.cr3 = cr3 then some 0
    else (findCallDescriptor eip cr3 rest).map (fun i => i + 1)

/-- The position at which `Multimap.insert` puts an entry of key `k`. -/
def Multimap.upper_bound {α : Type} (k : Nat) : Multimap α → Nat
  | [] => 0
  | e :: rest => if e.1 ≤ k then Multimap.upper_bound k rest + 1 else 0

/-- Source function `FunctionMonitor::getCallSignal` (lines 32-47): the
registry after the call and the position of the descriptor whose signal is
returned. -/
def getCallSignal (m : Multimap CallDescriptor) (eip cr3 : Nat) : Multimap CallDescriptor × Nat :=
  match findCallDescriptor eip cr3 m with
  | some i => (m, i)
  | none => (Multimap.insert eip { cr3 := cr3, signal := [] } m, Multimap.upper_bound eip m)

/-- Effect of `signal->connect(slot)` on the signal at position `i`: the slot is
appended to the slots already connected. -/
def connect (m : Multimap CallDescriptor) (i : Nat) (slot : CallSlot) : Multimap CallDescriptor :=
  m.modify (fun e => (e.1, { e.2 with signal := e.2.signal ++ [slot] })) i

/-- The registration idiom of line 27: `getCallSignal(eip, cr3)->connect(slot)`. -/
def registerCall (m : Multimap CallDescriptor) (eip cr3 : Nat) (slot : CallSlot) :
    Multimap CallDescriptor :=
  connect (getCallSignal m eip cr3).1 (getCallSignal m eip cr3).2 slot

/-- Emission of a call signal, `signal.emit(state, &descriptor.signal)`: the
slots run in connection order, each adding its return slots to the one return
signal of the descriptor. -/
def emitCall (state : S2EExecutionState) : CallSignal → ReturnSignal → List Notification × ReturnSignal
  | [], ret => ([], ret)
  | slot :: rest, ret =>
    let r := emitCall state rest (ret ++ slot.run state)
    (Notification.call slot.id :: r.1, r.2)

/-- Emission of a return signal, `signal.emit(state)`: its slots run in
connection order. -/
def emitRet (signal : ReturnSignal) : List Notification :=
  signal.map Notification.ret

/-- The loop of lines 90-98, and again of lines 102-110, over the descriptors
of one `equal_range`: a descriptor whose `cr3` is `0` or the current `cr3` has
its signal emitted with a fresh return descriptor, which is inserted under
`esp` when its signal is not empty afterwards. -/
def slotCallLoop (state : S2EExecutionState) (cr3 esp : Nat) :
    List CallDescriptor → Multimap ReturnDescriptor → List Notification × Multimap ReturnDescriptor
  | [], rets => ([], rets)
  | d :: range, rets =>
    if d.cr3 = 0 ∨ d.cr3 = cr3 then
      let e := emitCall state d.signal []
      let rets1 :=
        if e.2 ≠ [] then Multimap.insert esp { state := state.id, cr3 := cr3, signal := e.2 } rets
        else rets
      let r := slotCallLoop state cr3 esp range rets1
      (e.1 ++ r.1, r.2)
    else slotCallLoop state cr3 esp range rets

/-- Source function `FunctionMonitor::slotCall` (lines 72-111): the monitor
afterwards and the notifications made, in order. -/
def slotCall (fm : FunctionMonitor) (state : S2EExecutionState) : FunctionMonitor × List Notification :=
  let cr3 := state.cr3
  let eip := state.eip
  match state.esp with
  | none => (fm, [Notification.symbolicEspCall eip cr3])
  | some esp =>
    let r1 := slotCallLoop state cr3 esp (Multimap.equal_range 0 fm.m_callDescriptors)
      fm.m_returnDescriptors
    let r2 := slotCallLoop state cr3 esp (Multimap.equal_range eip fm.m_callDescriptors) r1.2
    ({ fm with m_returnDescriptors := r2.2 }, r1.1 ++ r2.1)

/-- The condition of line 135, for an entry reached through
`equal_range(esp)`: key `esp`, same state object, same `cr3`. -/
def retMatches (state cr3 esp : Nat) (e : Nat × ReturnDescriptor) : Bool :=
  e.1 = esp ∧ e.2.state = state ∧ e.2.cr3 = cr3

/-- One run of the `for` loop of lines 134-141: the entries of key `esp` are
visited in order; the first one that matches is taken out of the map (its
signal is emitted and it is erased, then `break`).  The result is the signal of
that entry and the map without it, or `none` when the loop ends without a
match, which leaves `finished` true. -/
def slotRetScan (state cr3 esp : Nat) :
    Multimap ReturnDescriptor → Option (ReturnSignal × Multimap ReturnDescriptor)
  | [] => none
  | e :: rest =>
    if retMatches state cr3 esp e then some (e.2.signal, rest)
    else (slotRetScan state cr3 esp rest).map (fun r => (r.1, e :: r.2))

/-- The `do ... while(!finished)` loop of lines 129-142; `fuel` bounds the
number of runs of its body, and `none` means the bound was reached. -/
def slotRetLoop (state cr3 esp : Nat) :
    Nat → Multimap ReturnDescriptor → Option (List Notification × Multimap ReturnDescriptor)
  | 0, _ => none
  | fuel + 1, rets =>
    match slotRetScan state cr3 esp rets with
    | none => some ([], rets)
    | some (signal, rets1) =>
      (slotRetLoop state cr3 esp fuel rets1).map (fun r => (emitRet signal ++ r.1, r.2))

/-- Source function `FunctionMonitor::slotRet` (lines 113-143): the monitor
afterwards and the notifications made, in order; `none` when `fuel` runs of the
loop body were not enough. -/
def slotRet (fuel : Nat) (fm : FunctionMonitor) (state : S2EExecutionState) :
    Option (FunctionMonitor × List Notification) :=
  let cr3 := state.cr3
  match state.esp with
  | none => some (fm, [Notification.symbolicEspRet state.eip cr3])
  | some esp =>
    (slotRetLoop state.id cr3 esp fuel fm.m_returnDescriptors).map
      (fun r => ({ fm with m_returnDescriptors := r.2 }, r.1))

/-- The multimap invariant: iteration visits the entries by non-decreasing key. -/
def Multimap.ordered {α : Type} (m : Multimap α) : Prop :=
  m.Pairwise (fun a b => a.1 ≤ b.1)

/-- The call descriptors whose signal a call event emits, in emission order:
those of key `0`, then those of key `eip`, each kept when its `cr3` is `0` or
the `cr3` of the event. -/
def emittedDescriptors (fm : FunctionMonitor) (state : S2EExecutionState) : List CallDescriptor :=
  (Multimap.equal_range 0 fm.m_callDescriptors
    ++ Multimap.equal_range state.eip fm.m_callDescriptors).filter
      (fun d => d.cr3 = 0 ∨ d.cr3 = state.cr3)

/-- The call slots a call event invokes, in invocation order. -/
def firedSlots (fm : FunctionMonitor) (state : S2EExecutionState) : List CallSlot :=
  (emittedDescriptors fm state).flatMap (fun d => d.signal)

/-- The return slots the slots of one call descriptor attach when its signal
is emitted for `state`, in attachment order. -/
def attachedBy (state : S2EExecutionState) (d : CallDescriptor) : ReturnSignal :=
  d.signal.flatMap (fun slot => slot.run state)

/-- The return slots attached during a call event, in attachment order. -/
def attachedDuringCall (fm : FunctionMonitor) (state : S2EExecutionState) : ReturnSignal :=
  (emittedDescriptors fm state).flatMap (attachedBy state)

/-- One pending entry per emitted call signal that received at least one
return slot, holding the return slots attached through that signal. -/
def newReturnDescriptors (fm : FunctionMonitor) (state : S2EExecutionState) :
    List ReturnDescriptor :=
  (emittedDescriptors fm state).filterMap (fun d =>
    if attachedBy state d = [] then none
    else some { state := state.id, cr3 := state.cr3, signal := attachedBy state d })

/-- Successive insertion of values under one key. -/
def Multimap.insertAll {α : Type} (k : Nat) (vs : List α) (m : Multimap α) : Multimap α :=
  vs.foldl (fun acc v => Multimap.insert k v acc) m

/-- The identifiers of all slots connected in a call registry, with repetition. -/
def registeredIds (m : Multimap CallDescriptor) : List Nat :=
  m.flatMap (fun e => e.2.signal.map (fun slot => slot.id))

/-- A notification from the execution engine: a call-type or a return-type
control transfer, with the state it happens in. -/
inductive Event where
  | call (state : S2EExecutionState)
  | ret (state : S2EExecutionState)
deriving DecidableEq, Repr

/-- The reaction of the monitor to one event.  `slotRet` gets one unit of fuel
more than the table has entries, which is more than its loop can use. -/
def onEvent (fm : FunctionMonitor) : Event → Option (FunctionMonitor × List Notification)
  | Event.call state => some (slotCall fm state)
  | Event.ret state => slotRet (fm.m_returnDescriptors.length + 1) fm state

/-- The reaction of the monitor to a sequence of events, one after the other. -/
def run : FunctionMonitor → List Event → Option (FunctionMonitor × List Notification)
  | fm, [] => some (fm, [])
  | fm, ev :: evs =>
    match onEvent fm ev with
    | none => none
    | some r => (run r.1 evs).map (fun r2 => (r2.1, r.2 ++ r2.2))

/-- The pending entries that the call events of a sequence create for the state
`sid`, the address space `cr3` and the stack pointer `esp`, in order: for each
call event with that state, `cr3` and concrete stack pointer, the entries it
makes (one per emitted call signal that received a return slot). -/
def laterPending (fm : FunctionMonitor) (sid cr3 esp : Nat) : List Event → List ReturnDescriptor
  | [] => []
  | Event.call st :: evs =>
    (if st.esp = some esp ∧ st.id = sid ∧ st.cr3 = cr3 then newReturnDescriptors fm st else [])
      ++ laterPending fm sid cr3 esp evs
  | Event.ret _ :: evs => laterPending fm sid cr3 esp evs

/-- The call registries the plugin can hold: the empty one, and those obtained
from such a registry by a call of `getCallSignal` or by connecting a slot to
the signal at some position. -/
inductive Reachable : Multimap CallDescriptor → Prop where
  | empty : Reachable []
  | get (m : Multimap CallDescriptor) (eip cr3 : Nat) :
      Reachable m → Reachable (getCallSignal m eip cr3).1
  | connected (m : Multimap CallDescriptor) (i : Nat) (slot : CallSlot) :
      Reachable m → Reachable (connect m i slot)

/-- The (target address, address space) pairs of the descriptors of a registry,
in iteration order. -/
def descriptorKeys (m : Multimap CallDescriptor) : List (Nat × Nat) :=
  m.map (fun e => (e.1, e.2.cr3))

/-- One registration of a call observer: `getCallSignal(eip, cr3)->connect(slot)`. -/
structure Registration where
  eip : Nat
  cr3 : Nat
  slot : CallSlot

/-- The registry after a sequence of registrations, made in list order on the
empty registry. -/
def registerAll (regs : List Registration) : Multimap CallDescriptor :=
  regs.foldl (fun m r => registerCall m r.eip r.cr3 r.slot) []

/-- The values of a list in order of first occurrence. -/
def firstOccurrences : List Nat → List Nat
  | [] => []
  | c :: cs => c :: (firstOccurrences cs).filter (fun x => x ≠ c)

/-- The address spaces under which an observer was registered at address `k`,
in the order in which each was first used. -/
def spacesAt (k : Nat) (regs : List Registration) : List Nat :=
  firstOccurrences ((regs.filter (fun r => r.eip = k)).map (fun r => r.cr3))

/-- The slots registered under the key `(k, c)`, in registration order. -/
def slotsAt (k c : Nat) (regs : List Registration) : List CallSlot :=
  (regs.filter (fun r => r.eip = k ∧ r.cr3 = c)).map (fun r => r.slot)

/-- The registrations of the group of address `k` that a call in address space
`cr3` fires: those at address `k` under address space `0` or `cr3`, in
registration order. -/
def firedRegistrations (k cr3 : Nat) (regs : List Registration) : List Registration :=
  regs.filter (fun r => r.eip = k ∧ (r.cr3 = 0 ∨ r.cr3 = cr3))

/-- The slots of the group of address `k` in key-by-key order: for each of the
address spaces `0` and `cr3` under which something is registered at `k`, taken
in order of first registration, the slots registered under it in registration
order. -/
def groupOrder (k cr3 : Nat) (regs : List Registration) : List CallSlot :=
  ((spacesAt k regs).filter (fun c => c = 0 ∨ c = cr3)).flatMap (fun c => slotsAt k c regs)

/-- The descriptors of one address after a registration under address space
`cr3`: the slot is appended to the signal of the first descriptor of that
address space, or a new descriptor holding only the slot is appended. -/
def registerInto (cr3 : Nat) (slot : CallSlot) : List CallDescriptor → List CallDescriptor
  | [] => [{ cr3 := cr3, signal := [slot] }]
  | d :: ds =>
    if d.cr3 = cr3 then { d with signal := d.signal ++ [slot] } :: ds
    else d :: registerInto cr3 slot ds

end FunctionMonitor

/-! ## Concrete inputs used by the closed statements -/

namespace ExecutionTraceTestCase

/-- A list with an empty-name/empty-data pair and a pair with non-text data bytes. -/
def sampleInputs : ConcreteInputs := [([], []), ([0x61, 0x62], [0x00, 0xff, 0x80])]

/-- A single pair whose name has `2^32 + 5` bytes and whose data is empty. -/
def hugeName : ConcreteInputs := [(List.replicate (2 ^ 32 + 5) 0x61, [])]

/-- A name of 246 bytes, none of them zero. -/
def name246 : List Byte := List.replicate 246 0x61

/-- A nine-byte buffer holding one header that declares `nameSize = 0` and
`dataSize = 2`, followed by a single data byte. -/
def truncatedBuf : List Byte := [0, 0, 0, 0, 2, 0, 0, 0, 0x41]

end ExecutionTraceTestCase

namespace FunctionMonitor

/-- A call slot that attaches return slot `10` on every call. -/
def slotA : CallSlot := { id := 1, run := fun _ => [10] }

/-- A call slot that attaches return slot `20` on every call. -/
def slotB : CallSlot := { id := 2, run := fun _ => [20] }

/-- A call slot that attaches nothing. -/
def slotQuiet : CallSlot := { id := 3, run := fun _ => [] }

/-- A third call slot, attaching return slot `30`. -/
def slotC : CallSlot := { id := 4, run := fun _ => [30] }

/-- Catch-all registrations interleaved over two keys: `slotA` under `(0, 0)`,
then `slotB` under `(0, 1)`, then `slotC` under `(0, 0)` again. -/
def interleavedRegs : List Registration :=
  [{ eip := 0, cr3 := 0, slot := slotA }, { eip := 0, cr3 := 1, slot := slotB },
   { eip := 0, cr3 := 0, slot := slotC }]

/-- The registrations of the scenario of the spec. -/
def regsAB : List Registration :=
  [{ eip := 0, cr3 := 0, slot := slotA }, { eip := 0x1000, cr3 := 1, slot := slotB }]

/-- The scenario of the spec: `slotA` registered at `(0, 0)`, then `slotB` at
`(0x1000, 1)`, and no pending return. -/
def monitorAB : FunctionMonitor :=
  { m_callDescriptors := registerCall (registerCall [] 0 0 slotA) 0x1000 1 slotB,
    m_returnDescriptors := [] }

/-- Only `slotA` registered, as catch-all for every address space. -/
def monitorA : FunctionMonitor :=
  { m_callDescriptors := registerCall [] 0 0 slotA, m_returnDescriptors := [] }

/-- The call `onCall(ctx 1, space 1, target 0x1000, sp 0x7000)`. -/
def callEvent : S2EExecutionState := { id := 1, cr3 := 1, eip := 0x1000, esp := some 0x7000 }

/-- The return `onReturn(ctx 1, space 1, sp 0x7000)`. -/
def retEvent : S2EExecutionState := { id := 1, cr3 := 1, eip := 0x1234, esp := some 0x7000 }

/-- A call whose target address is `0`. -/
def callToZero : S2EExecutionState := { id := 1, cr3 := 1, eip := 0, esp := some 0x7000 }

/-- An event whose stack pointer is symbolic. -/
def symbolicEvent : S2EExecutionState := { id := 1, cr3 := 1, eip := 0x1000, esp := none }

/-- Events between a call and its return: a return in another address space,
a call with a symbolic stack pointer, and a call at another stack pointer. -/
def interveningEvents : List Event :=
  [Event.ret { id := 1, cr3 := 2, eip := 0x1234, esp := some 0x7000 },
   Event.call symbolicEvent,
   Event.call { id := 1, cr3 := 1, eip := 0x1000, esp := some 0x6ff0 }]

/-- A pending-return table with two entries for `(sp 0x7000, ctx 1, space 1)`
between entries of another stack pointer, another context and another space. -/
def pendingTable : Multimap ReturnDescriptor :=
  [(0x6000, { state := 1, cr3 := 1, signal := [5] }),
   (0x7000, { state := 1, cr3 := 1, signal := [10] }),
   (0x7000, { state := 2, cr3 := 1, signal := [6] }),
   (0x7000, { state := 1, cr3 := 1, signal := [20] }),
   (0x7000, { state := 1, cr3 := 2, signal := [7] })]

/-- A monitor with no call registration and the table `pendingTable`. -/
def monitorPending : FunctionMonitor :=
  { m_callDescriptors := [], m_returnDescriptors := pendingTable }

end FunctionMonitor

/-! ## Lemmas on the payload codec -/

namespace ExecutionTraceTestCase

theorem loadU32_storeU32 (n : Nat) (h : n < 2 ^ 32) :
    loadU32 (Fin.ofNat n) (Fin.ofNat (n / 2 ^ 8)) (Fin.ofNat (n / 2 ^ 16))
      (Fin.ofNat (n / 2 ^ 24)) = n := by
  simp only [loadU32, Fin.ofNat, Fin.val_mk, Nat.reducePow, Nat.reduceAdd]
  show n % 256 + 256 * (n / 256 % 256) + 65536 * (n / 65536 % 256)
    + 16777216 * (n / 16777216 % 256) = n
  omega

theorem loadU32_lt (b0 b1 b2 b3 : Byte) : loadU32 b0 b1 b2 b3 < 2 ^ 32 := by
  have h0 := b0.isLt
  have h1 := b1.isLt
  have h2 := b2.isLt
  have h3 := b3.isLt
  simp only [loadU32, Nat.reducePow]
  omega

theorem storeU32_loadU32 (b0 b1 b2 b3 : Byte) :
    storeU32 (loadU32 b0 b1 b2 b3) = [b0, b1, b2, b3] := by
  have h0 := b0.isLt
  have h1 := b1.isLt
  have h2 := b2.isLt
  have h3 := b3.isLt
  simp only [storeU32, loadU32, Fin.ofNat, Nat.reducePow, Nat.reduceAdd, List.cons.injEq,
    and_true]
  refine ⟨?_, ?_, ?_, ?_⟩ <;> apply Fin.ext <;> simp only [Fin.val_mk] <;> omega

theorem toU32_of_lt (n : Nat) (h : n < 2 ^ 32) : toU32 n = n := by
  unfold toU32
  exact Nat.mod_eq_of_lt h

theorem serializeBufsize_eq (inputs : ConcreteInputs) (acc : Nat) (hacc : acc < 2 ^ 32) :
    serializeBufsize inputs acc = (acc + encodedSize inputs) % 2 ^ 32 := by
  induction inputs generalizing acc with
  | nil => simp only [serializeBufsize, encodedSize, Nat.add_zero, Nat.mod_eq_of_lt hacc]
  | cons it rest ih =>
    simp only [serializeBufsize, encodedSize, toU32]
    rw [ih _ (Nat.mod_lt _ (by norm_num))]
    omega

theorem readLoop_append (xs rest acc : List Byte) (buflen : Nat)
    (h1 : xs.length ≤ buflen) (h2 : buflen < 2 ^ 64) :
    readLoop xs.length (xs ++ rest) buflen acc = .ok (acc ++ xs, rest, buflen - xs.length) := by
  induction xs generalizing acc buflen with
  | nil => simp [readLoop]
  | cons x xs ih =>
    simp only [List.length_cons] at h1
    have hdec : (buflen + (2 ^ 64 - 1)) % 2 ^ 64 = buflen - 1 := by omega
    show readLoop xs.length (xs ++ rest) ((buflen + (2 ^ 64 - 1)) % 2 ^ 64) (acc ++ [x]) = _
    rw [hdec, ih (acc ++ [x]) (buflen - 1) (by omega) (by omega)]
    simp only [List.append_assoc, List.singleton_append, List.length_cons]
    have : buflen - 1 - xs.length = buflen - (xs.length + 1) := by omega
    rw [this]

/-- Decoding the bytes written for a list of pairs whose lengths fit the
32-bit header fields consumes the buffer exactly and appends the pairs. -/
theorem deserializeLoop_serializeWrite (inputs : ConcreteInputs) (fuel : Nat)
    (out : ConcreteInputs)
    (hfit : ∀ p ∈ inputs, p.1.length < 2 ^ 32 ∧ p.2.length < 2 ^ 32)
    (htot : encodedSize inputs < 2 ^ 64) (hfuel : inputs.length < fuel) :
    deserializeLoop fuel (serializeWrite inputs) (encodedSize inputs) out
      = .returned (out ++ inputs) := by
  induction inputs generalizing fuel out with
  | nil =>
    cases fuel with
    | zero => simp at hfuel
    | succ fuel => simp [deserializeLoop, encodedSize, serializeWrite]
  | cons it rest ih =>
    cases fuel with
    | zero => simp at hfuel
    | succ fuel =>
      obtain ⟨hn, hd⟩ := hfit it (List.mem_cons_self _ _)
      have hrest : ∀ p ∈ rest, p.1.length < 2 ^ 32 ∧ p.2.length < 2 ^ 32 :=
        fun p hp => hfit p (List.mem_cons_of_mem _ hp)
      simp only [encodedSize, sizeofHeader] at htot
      simp only [List.length_cons, Nat.add_lt_add_iff_right] at hfuel
      have hpos : 0 < encodedSize (it :: rest) := by
        simp only [encodedSize, sizeofHeader]; omega
      have hsub : (encodedSize (it :: rest) + (2 ^ 64 - sizeofHeader)) % 2 ^ 64
          = it.1.length + it.2.length + encodedSize rest := by
        simp only [encodedSize, sizeofHeader]; omega
      simp only [serializeWrite, storeU32, toU32_of_lt _ hn, toU32_of_lt _ hd,
        List.cons_append, List.nil_append, List.append_assoc, deserializeLoop, hpos, if_true,
        loadU32_storeU32 _ hn, loadU32_storeU32 _ hd, hsub]
      rw [readLoop_append it.1 _ [] _ (by omega) (by omega)]
      simp only [List.nil_append]
      rw [readLoop_append it.2 _ [] _ (by omega) (by omega)]
      simp only [List.nil_append]
      have hlen : it.1.length + it.2.length + encodedSize rest - it.1.length - it.2.length
          = encodedSize rest := by omega
      rw [hlen, ih fuel _ hrest (by omega) hfuel]
      simp

theorem readLoop_ok (n : Nat) (a acc r a2 : List Byte) (buflen buflen2 : Nat)
    (h : readLoop n a buflen acc = .ok (r, a2, buflen2))
    (hb : buflen = a.length) (h64 : a.length < 2 ^ 64) :
    ∃ xs, xs.length = n ∧ a = xs ++ a2 ∧ r = acc ++ xs ∧ buflen2 = a2.length := by
  induction n generalizing a acc buflen with
  | zero =>
    simp only [readLoop, Except.ok.injEq, Prod.mk.injEq] at h
    obtain ⟨h1, h2, h3⟩ := h
    subst h1 h2 h3
    exact ⟨[], rfl, by simp, by simp, hb⟩
  | succ n ih =>
    cases a with
    | nil => simp [readLoop] at h
    | cons b a =>
      simp only [readLoop] at h
      simp only [List.length_cons] at hb h64
      obtain ⟨xs, hx1, hx2, hx3, hx4⟩ := ih a (acc ++ [b]) _ h (by omega) (by omega)
      exact ⟨b :: xs, by simp [hx1], by simp [hx2], by simp [hx3], hx4⟩

/-- A run that returns has consumed the buffer exactly: the buffer is the
concatenation of the tuples of the pairs appended to `out`. -/
theorem deserializeLoop_returned (fuel : Nat) (a : List Byte) (out res : ConcreteInputs)
    (h : deserializeLoop fuel a a.length out = .returned res) (h64 : a.length < 2 ^ 64) :
    ∃ l, res = out ++ l ∧ a = serializeWrite l ∧ l.length < fuel
      ∧ ∀ p ∈ l, p.1.length < 2 ^ 32 ∧ p.2.length < 2 ^ 32 := by
  induction fuel generalizing a out with
  | zero => simp [deserializeLoop] at h
  | succ fuel ih =>
    unfold deserializeLoop at h
    split at h
    · rename_i hpos
      split at h
      · rename_i b0 b1 b2 b3 b4 b5 b6 b7 a1
        simp only [List.length_cons, sizeofHeader] at h h64
        have hsub : (a1.length + 1 + 1 + 1 + 1 + 1 + 1 + 1 + 1 + (2 ^ 64 - 8)) % 2 ^ 64
            = a1.length := by omega
        rw [hsub] at h
        split at h
        · simp at h
        · rename_i name a2 buflen2 hname
          obtain ⟨xs, hx1, hx2, hx3, hx4⟩ := readLoop_ok _ _ _ _ _ _ _ hname rfl (by omega)
          subst hx4
          split at h
          · simp at h
          · rename_i data a3 buflen3 hdata
            have ha2 : a2.length < 2 ^ 64 := by
              have := congrArg List.length hx2
              simp only [List.length_append] at this
              omega
            obtain ⟨ys, hy1, hy2, hy3, hy4⟩ := readLoop_ok _ _ _ _ _ _ _ hdata rfl ha2
            subst hy4
            have ha3 : a3.length < 2 ^ 64 := by
              have := congrArg List.length hy2
              simp only [List.length_append] at this
              omega
            obtain ⟨l, hl1, hl2, hl3, hl4⟩ := ih a3 _ h ha3
            simp only [List.nil_append] at hx3 hy3
            subst hx3 hy3
            refine ⟨(name, data) :: l, by simp [hl1], ?_, by simp [hl3], ?_⟩
            · have e1 := storeU32_loadU32 b0 b1 b2 b3
              have e2 := storeU32_loadU32 b4 b5 b6 b7
              have l1 := loadU32_lt b0 b1 b2 b3
              have l2 := loadU32_lt b4 b5 b6 b7
              simp only [serializeWrite, hx1, hy1, toU32_of_lt _ l1, toU32_of_lt _ l2, e1, e2,
                List.cons_append, List.nil_append, List.append_assoc, hx2, hy2, hl2]
            · intro p hp
              rcases List.mem_cons.mp hp with rfl | hp
              · exact ⟨hx1 ▸ loadU32_lt b0 b1 b2 b3, hy1 ▸ loadU32_lt b4 b5 b6 b7⟩
              · exact hl4 p hp
      · simp at h
    · rename_i hzero
      simp only [DecodeRun.returned.injEq] at h
      have : a = [] := List.length_eq_zero.mp (by omega)
      exact ⟨[], by simp [h], by simp [this, serializeWrite], by simp, by simp⟩

theorem readLoop_length (n : Nat) (a acc r a2 : List Byte) (buflen buflen2 : Nat)
    (h : readLoop n a buflen acc = .ok (r, a2, buflen2)) : a2.length ≤ a.length := by
  induction n generalizing a acc buflen with
  | zero =>
    simp only [readLoop, Except.ok.injEq, Prod.mk.injEq] at h
    rw [h.2.1]
  | succ n ih =>
    cases a with
    | nil => simp [readLoop] at h
    | cons b a =>
      simp only [readLoop] at h
      have := ih a _ _ h
      simp only [List.length_cons]
      omega

/-- The decode loop ends, by returning or by a read past the end, within one
iteration per eight bytes of buffer: with more fuel than the buffer has bytes
the fuel never runs out. -/
theorem deserializeLoop_fuel (fuel : Nat) (a : List Byte) (buflen : Nat) (out : ConcreteInputs)
    (hfuel : a.length < fuel) : deserializeLoop fuel a buflen out ≠ .outOfFuel := by
  induction fuel generalizing a buflen out with
  | zero => simp at hfuel
  | succ fuel ih =>
    unfold deserializeLoop
    split
    · split
      · rename_i b0 b1 b2 b3 b4 b5 b6 b7 a1
        simp only [List.length_cons] at hfuel
        split
        · simp
        · rename_i name a2 buflen2 hname
          have h2 := readLoop_length _ _ _ _ _ _ _ hname
          split
          · simp
          · rename_i data a3 buflen3 hdata
            have h3 := readLoop_length _ _ _ _ _ _ _ hdata
            exact ih a3 buflen3 _ (by omega)
      · simp
    · simp

theorem length_serializeWrite (inputs : ConcreteInputs) :
    (serializeWrite inputs).length = encodedSize inputs := by
  induction inputs with
  | nil => rfl
  | cons it rest ih =>
    simp only [serializeWrite, storeU32, encodedSize, sizeofHeader, List.length_append,
      List.length_cons, List.length_nil, ih]

end ExecutionTraceTestCase

/-! ## Lemmas on the function monitor -/

namespace FunctionMonitor

theorem emitCall_eq (state : S2EExecutionState) (signal : CallSignal) (ret : ReturnSignal) :
    emitCall state signal ret
      = (signal.map (fun slot => Notification.call slot.id),
         ret ++ signal.flatMap (fun slot => slot.run state)) := by
  induction signal generalizing ret with
  | nil => simp [emitCall]
  | cons slot rest ih => simp [emitCall, ih]

theorem Multimap.length_insert {α : Type} (k : Nat) (v : α) (m : Multimap α) :
    (Multimap.insert k v m).length = m.length + 1 := by
  induction m with
  | nil => rfl
  | cons e rest ih =>
    simp only [Multimap.insert]
    split <;> simp [ih]

theorem Multimap.length_insertAll {α : Type} (k : Nat) (vs : List α) (m : Multimap α) :
    (Multimap.insertAll k vs m).length = m.length + vs.length := by
  induction vs generalizing m with
  | nil => rfl
  | cons v vs ih =>
    simp only [Multimap.insertAll, List.foldl_cons, List.length_cons] at ih ⊢
    rw [ih, Multimap.length_insert]
    omega

theorem Multimap.ordered_insert {α : Type} (k : Nat) (v : α) (m : Multimap α)
    (h : Multimap.ordered m) : Multimap.ordered (Multimap.insert k v m) := by
  induction m with
  | nil => simp [Multimap.insert, Multimap.ordered]
  | cons e rest ih =>
    simp only [Multimap.ordered, List.pairwise_cons] at h
    simp only [Multimap.insert]
    split
    · rename_i hle
      simp only [Multimap.ordered, List.pairwise_cons]
      refine ⟨?_, ih h.2⟩
      intro x hx
      have hmem : ∀ (m : Multimap α) (x : Nat × α), x ∈ Multimap.insert k v m → x = (k, v) ∨ x ∈ m := by
        intro m
        induction m with
        | nil => intro x hx; simp [Multimap.insert] at hx; exact Or.inl hx
        | cons e2 rest2 ih2 =>
          intro x hx
          simp only [Multimap.insert] at hx
          split at hx
          · rcases List.mem_cons.mp hx with h1 | h1
            · exact Or.inr (h1 ▸ List.mem_cons_self _ _)
            · rcases ih2 x h1 with h2 | h2
              · exact Or.inl h2
              · exact Or.inr (List.mem_cons_of_mem _ h2)
          · rcases List.mem_cons.mp hx with h1 | h1
            · exact Or.inl h1
            · exact Or.inr h1
      rcases hmem rest x hx with h1 | h1
      · rw [h1]; exact hle
      · exact h.1 x h1
    · rename_i hgt
      simp only [Multimap.ordered, List.pairwise_cons]
      refine ⟨?_, h.1, h.2⟩
      intro x hx
      rcases List.mem_cons.mp hx with h1 | h1
      · rw [h1]; show k ≤ e.1; omega
      · have := h.1 x h1
        show k ≤ x.1
        omega

theorem Multimap.ordered_insertAll {α : Type} (k : Nat) (vs : List α) (m : Multimap α)
    (h : Multimap.ordered m) : Multimap.ordered (Multimap.insertAll k vs m) := by
  induction vs generalizing m with
  | nil => exact h
  | cons v vs ih => exact ih _ (Multimap.ordered_insert k v m h)

/-- Filtering by a predicate that only holds for entries of key `k`: the
inserted entry comes after the entries already present. -/
theorem Multimap.filter_insert_same {α : Type} (k : Nat) (v : α) (m : Multimap α)
    (q : Nat × α → Bool) (hq : ∀ e, q e = true → e.1 = k) (h : Multimap.ordered m) :
    (Multimap.insert k v m).filter q = m.filter q ++ [(k, v)].filter q := by
  induction m with
  | nil => simp [Multimap.insert]
  | cons e rest ih =>
    simp only [Multimap.ordered, List.pairwise_cons] at h
    simp only [Multimap.insert]
    split
    · cases hqe : q e with
      | false => rw [List.filter_cons_of_neg (by simp [hqe]), List.filter_cons_of_neg (by simp [hqe])]
                 exact ih h.2
      | true => rw [List.filter_cons_of_pos hqe, List.filter_cons_of_pos hqe, ih h.2]
                rfl
    · rename_i hgt
      have he : q e = false := by
        cases hqe : q e with
        | false => rfl
        | true => have := hq e hqe; omega
      have hrest : rest.filter q = [] := by
        rw [List.filter_eq_nil_iff]
        intro x hx hqx
        have h1 := h.1 x hx
        have h2 := hq x hqx
        omega
      simp [List.filter_cons, he, hrest]

/-- Filtering by a predicate that rejects the inserted entry. -/
theorem Multimap.filter_insert_other {α : Type} (k : Nat) (v : α) (m : Multimap α)
    (q : Nat × α → Bool) (hq : q (k, v) = false) :
    (Multimap.insert k v m).filter q = m.filter q := by
  induction m with
  | nil => simp [Multimap.insert, hq]
  | cons e rest ih =>
    simp only [Multimap.insert]
    split
    · simp only [List.filter_cons, ih]
    · simp [List.filter_cons, hq]

theorem Multimap.insertAll_append {α : Type} (k : Nat) (vs ws : List α) (m : Multimap α) :
    Multimap.insertAll k (vs ++ ws) m = Multimap.insertAll k ws (Multimap.insertAll k vs m) := by
  simp [Multimap.insertAll, List.foldl_append]

/-- Closed form of the loop of `slotCall` over one `equal_range`. -/
theorem slotCallLoop_eq (state : S2EExecutionState) (cr3 esp : Nat)
    (range : List CallDescriptor) (rets : Multimap ReturnDescriptor) :
    slotCallLoop state cr3 esp range rets
      = ((range.filter (fun d => d.cr3 = 0 ∨ d.cr3 = cr3)).flatMap
            (fun d => d.signal.map (fun slot => Notification.call slot.id)),
         Multimap.insertAll esp
           ((range.filter (fun d => d.cr3 = 0 ∨ d.cr3 = cr3)).filterMap (fun d =>
              if attachedBy state d = [] then none
              else some { state := state.id, cr3 := cr3, signal := attachedBy state d }))
           rets) := by
  induction range generalizing rets with
  | nil => simp [slotCallLoop, Multimap.insertAll]
  | cons d range ih =>
    simp only [slotCallLoop]
    by_cases hc : d.cr3 = 0 ∨ d.cr3 = cr3
    · have hf : (d :: range).filter (fun d => d.cr3 = 0 ∨ d.cr3 = cr3)
          = d :: range.filter (fun d => d.cr3 = 0 ∨ d.cr3 = cr3) := by
        rw [List.filter_cons_of_pos]; simpa using hc
      rw [if_pos hc, hf, ih]
      simp only [emitCall_eq, List.nil_append, List.flatMap_cons, List.filterMap_cons]
      by_cases he : attachedBy state d = []
      · have he2 : List.flatMap d.signal (fun slot => slot.run state) = [] := he
        simp [he, he2]
      · have he2 : List.flatMap d.signal (fun slot => slot.run state) ≠ [] := he
        simp only [he, he2, ne_eq, not_false_eq_true, if_true, if_false]
        simp only [Multimap.insertAll, List.foldl_cons]
        rfl
    · have hf : (d :: range).filter (fun d => d.cr3 = 0 ∨ d.cr3 = cr3)
          = range.filter (fun d => d.cr3 = 0 ∨ d.cr3 = cr3) := by
        rw [List.filter_cons_of_neg]; simpa using hc
      rw [if_neg hc, hf, ih]

/-- Closed form of `slotCall` on an event with a concrete stack pointer. -/
theorem slotCall_eq (fm : FunctionMonitor) (state : S2EExecutionState) (esp : Nat)
    (hesp : state.esp = some esp) :
    slotCall fm state
      = ({ fm with m_returnDescriptors :=
            Multimap.insertAll esp (newReturnDescriptors fm state) fm.m_returnDescriptors },
         (firedSlots fm state).map (fun slot => Notification.call slot.id)) := by
  simp only [slotCall, hesp, slotCallLoop_eq, newReturnDescriptors, emittedDescriptors,
    firedSlots, List.filter_append, List.filterMap_append, Multimap.insertAll_append,
    List.flatMap_append, List.map_append, List.map_flatMap]

theorem slotRetScan_none (state cr3 esp : Nat) (m : Multimap ReturnDescriptor)
    (h : slotRetScan state cr3 esp m = none) :
    m.filter (retMatches state cr3 esp) = []
      ∧ m.filter (fun e => !retMatches state cr3 esp e) = m := by
  induction m with
  | nil => simp
  | cons e rest ih =>
    simp only [slotRetScan] at h
    split at h
    · simp at h
    · rename_i hne
      simp only [Option.map_eq_none'] at h
      have hne2 : retMatches state cr3 esp e = false := by simpa using hne
      obtain ⟨h1, h2⟩ := ih h
      simp [List.filter_cons, hne2, h1, h2]

theorem slotRetScan_some (state cr3 esp : Nat) (m m1 : Multimap ReturnDescriptor)
    (signal : ReturnSignal) (h : slotRetScan state cr3 esp m = some (signal, m1)) :
    (∃ e, retMatches state cr3 esp e = true ∧ e.2.signal = signal
        ∧ m.filter (retMatches state cr3 esp) = e :: m1.filter (retMatches state cr3 esp))
      ∧ m.filter (fun e => !retMatches state cr3 esp e)
          = m1.filter (fun e => !retMatches state cr3 esp e)
      ∧ m.length = m1.length + 1 := by
  induction m generalizing m1 with
  | nil => simp [slotRetScan] at h
  | cons e rest ih =>
    simp only [slotRetScan] at h
    split at h
    · rename_i hm
      simp only [Option.some.injEq, Prod.mk.injEq] at h
      obtain ⟨h1, h2⟩ := h
      subst h2
      exact ⟨⟨e, hm, h1, by simp [List.filter_cons, hm]⟩, by simp [List.filter_cons, hm], rfl⟩
    · rename_i hne
      have hne2 : retMatches state cr3 esp e = false := by simpa using hne
      simp only [Option.map_eq_some', Prod.mk.injEq] at h
      obtain ⟨r, hr, hr1, hr2⟩ := h
      obtain ⟨⟨x, hx1, hx2, hx3⟩, h2, h3⟩ := ih r.2 (by rw [hr, ← hr1])
      subst hr2
      exact ⟨⟨x, hx1, hx2, by simp [List.filter_cons, hne2, hx3]⟩,
        by simp [List.filter_cons, hne2, h2], by simp [h3]⟩

/-- Closed form of the scan-erase-restart loop of `slotRet`: with enough fuel
it emits the signals of the matching entries in map order and leaves the
entries that do not match. -/
theorem slotRetLoop_eq (state cr3 esp : Nat) (fuel : Nat) (m : Multimap ReturnDescriptor)
    (hfuel : (m.filter (retMatches state cr3 esp)).length < fuel) :
    slotRetLoop state cr3 esp fuel m
      = some ((m.filter (retMatches state cr3 esp)).flatMap (fun e => emitRet e.2.signal),
              m.filter (fun e => !retMatches state cr3 esp e)) := by
  induction fuel generalizing m with
  | zero => simp at hfuel
  | succ fuel ih =>
    simp only [slotRetLoop]
    cases hs : slotRetScan state cr3 esp m with
    | none =>
      obtain ⟨h1, h2⟩ := slotRetScan_none state cr3 esp m hs
      simp [h1, h2]
    | some r =>
      obtain ⟨signal, m1⟩ := r
      obtain ⟨⟨e, he1, he2, he3⟩, h2, h3⟩ := slotRetScan_some state cr3 esp m m1 signal hs
      have hlt : (m1.filter (retMatches state cr3 esp)).length < fuel := by
        rw [he3] at hfuel
        simp only [List.length_cons] at hfuel
        omega
      simp only [ih m1 hlt, Option.map_some', he3, List.flatMap_cons, he2, h2]

/-- If `a` occurs exactly once in the concatenation of the lists `g y` for `y`
in `l`, and it occurs in `g x` for a member `x`, then its number of
occurrences over any filtered sublist only depends on whether `x` is kept. -/
theorem count_flatMap_filter_of_unique {β : Type} (g : β → List Nat) (a : Nat) (l : List β)
    (x : β) (P : β → Bool) (huniq : (l.flatMap g).count a = 1) (hx : x ∈ l) (ha : a ∈ g x) :
    ((l.filter P).flatMap g).count a = if P x then 1 else 0 := by
  have hzero : ∀ (l : List β), (l.flatMap g).count a = 0 →
      ((l.filter P).flatMap g).count a = 0 := by
    intro l
    induction l with
    | nil => simp
    | cons y rest ih =>
      intro h
      simp only [List.flatMap_cons, List.count_append, Nat.add_eq_zero] at h
      by_cases hp : P y = true
      · rw [List.filter_cons_of_pos hp, List.flatMap_cons, List.count_append, h.1, ih h.2]
      · rw [List.filter_cons_of_neg hp, ih h.2]
  have hpos : 0 < (g x).count a := List.count_pos_iff.mpr ha
  induction l with
  | nil => simp at hx
  | cons y rest ih =>
    simp only [List.flatMap_cons, List.count_append] at huniq
    rcases List.mem_cons.mp hx with hxy | hxr
    · subst hxy
      have hrest : (rest.flatMap g).count a = 0 := by omega
      have hone : (g x).count a = 1 := by omega
      by_cases hp : P x = true
      · rw [List.filter_cons_of_pos hp, List.flatMap_cons, List.count_append, hone,
          hzero rest hrest, if_pos hp]
      · rw [List.filter_cons_of_neg hp, hzero rest hrest, if_neg hp]
    · have hge : 0 < (rest.flatMap g).count a :=
        List.count_pos_iff.mpr (List.mem_flatMap.mpr ⟨x, hxr, ha⟩)
      have hy : (g y).count a = 0 := by omega
      have hrest : (rest.flatMap g).count a = 1 := by omega
      by_cases hp : P y = true
      · rw [List.filter_cons_of_pos hp, List.flatMap_cons, List.count_append, hy, Nat.zero_add]
        exact ih hrest hxr
      · rw [List.filter_cons_of_neg hp]
        exact ih hrest hxr

theorem count_call_map (id : Nat) (signal : CallSignal) :
    (signal.map (fun slot => Notification.call slot.id)).count (Notification.call id)
      = (signal.map (fun slot => slot.id)).count id := by
  have hinj : Function.Injective Notification.call := by
    intro a b h
    cases h
    rfl
  rw [← List.count_map_of_injective (signal.map (fun slot => slot.id)) Notification.call hinj]
  simp [List.map_map, Function.comp_def]

/-- The number of invocations of one call slot is the number of times its
identifier occurs among the slots of the emitted descriptors, registry entry
by registry entry. -/
theorem count_call_firedSlots (fm : FunctionMonitor) (state : S2EExecutionState) (id : Nat) :
    ((firedSlots fm state).map (fun slot => Notification.call slot.id)).count
        (Notification.call id)
      = ((fm.m_callDescriptors.filter
            (fun e => e.1 = 0 ∧ (e.2.cr3 = 0 ∨ e.2.cr3 = state.cr3))).flatMap
            (fun e => e.2.signal.map (fun slot => slot.id))).count id
        + ((fm.m_callDescriptors.filter
            (fun e => e.1 = state.eip ∧ (e.2.cr3 = 0 ∨ e.2.cr3 = state.cr3))).flatMap
            (fun e => e.2.signal.map (fun slot => slot.id))).count id := by
  rw [count_call_map]
  simp only [firedSlots, emittedDescriptors, Multimap.equal_range, List.filter_append,
    List.flatMap_append, List.map_append, List.count_append, List.filter_map,
    List.filter_filter, List.flatMap_map, List.map_flatMap, Function.comp_def]
  have hp : ∀ k : Nat, (fun e : Nat × CallDescriptor =>
      (decide (e.2.cr3 = 0 ∨ e.2.cr3 = state.cr3) && decide (e.1 = k)))
      = (fun e => decide (e.1 = k ∧ (e.2.cr3 = 0 ∨ e.2.cr3 = state.cr3))) := by
    intro k
    funext e
    simp only [Bool.decide_and, Bool.and_comm]
  simp only [hp]

theorem Multimap.filter_insertAll_same {α : Type} (k : Nat) (vs : List α) (m : Multimap α)
    (q : Nat × α → Bool) (hq : ∀ e, q e = true → e.1 = k) (h : Multimap.ordered m) :
    (Multimap.insertAll k vs m).filter q = m.filter q ++ (vs.map (fun v => (k, v))).filter q := by
  induction vs generalizing m with
  | nil => simp [Multimap.insertAll]
  | cons v vs ih =>
    have hstep : Multimap.insertAll k (v :: vs) m
        = Multimap.insertAll k vs (Multimap.insert k v m) := rfl
    rw [hstep, ih _ (Multimap.ordered_insert k v m h), Multimap.filter_insert_same k v m q hq h,
      List.map_cons, List.append_assoc]
    congr 1
    rw [← List.filter_append]
    rfl

theorem Multimap.filter_insertAll_other {α : Type} (k : Nat) (vs : List α) (m : Multimap α)
    (q : Nat × α → Bool) (hq : ∀ v ∈ vs, q (k, v) = false) :
    (Multimap.insertAll k vs m).filter q = m.filter q := by
  induction vs generalizing m with
  | nil => rfl
  | cons v vs ih =>
    have hstep : Multimap.insertAll k (v :: vs) m
        = Multimap.insertAll k vs (Multimap.insert k v m) := rfl
    rw [hstep, ih _ (fun w hw => hq w (List.mem_cons_of_mem _ hw)),
      Multimap.filter_insert_other k v m q (hq v (List.mem_cons_self _ _))]

theorem newReturnDescriptors_spec (fm : FunctionMonitor) (state : S2EExecutionState)
    (d : ReturnDescriptor) (hd : d ∈ newReturnDescriptors fm state) :
    d.state = state.id ∧ d.cr3 = state.cr3 ∧ d.signal ≠ []
      ∧ ∃ c ∈ emittedDescriptors fm state, d.signal = attachedBy state c := by
  simp only [newReturnDescriptors, List.mem_filterMap] at hd
  obtain ⟨c, hc, h⟩ := hd
  by_cases he : attachedBy state c = []
  · simp [he] at h
  · simp only [he, if_false, Option.some.injEq] at h
    subst h
    exact ⟨rfl, rfl, he, c, hc, rfl⟩

theorem flatMap_signal_filterMap (state : S2EExecutionState) (sid cr3 : Nat)
    (ds : List CallDescriptor) :
    (ds.filterMap (fun d =>
        if attachedBy state d = [] then none
        else some ({ state := sid, cr3 := cr3, signal := attachedBy state d }
          : ReturnDescriptor))).flatMap (fun r => r.signal)
      = ds.flatMap (attachedBy state) := by
  induction ds with
  | nil => rfl
  | cons d ds ih =>
    by_cases he : attachedBy state d = []
    · simp only [List.filterMap_cons, he, if_true, List.flatMap_cons, List.nil_append, ih]
    · simp only [List.filterMap_cons, he, if_false, List.flatMap_cons, ih]

theorem newReturnDescriptors_signals (fm : FunctionMonitor) (state : S2EExecutionState) :
    (newReturnDescriptors fm state).flatMap (fun r => r.signal) = attachedDuringCall fm state := by
  simp only [newReturnDescriptors, attachedDuringCall, flatMap_signal_filterMap]

theorem newReturnDescriptors_eq_nil_iff (fm : FunctionMonitor) (state : S2EExecutionState) :
    newReturnDescriptors fm state = [] ↔ ∀ slot ∈ firedSlots fm state, slot.run state = [] := by
  simp only [newReturnDescriptors, List.filterMap_eq_nil_iff, firedSlots, List.mem_flatMap]
  constructor
  · rintro h slot ⟨d, hd, hs⟩
    have := h d hd
    by_cases he : attachedBy state d = []
    · simp only [attachedBy, List.flatMap_eq_nil_iff] at he
      exact he slot hs
    · simp [he] at this
  · intro h d hd
    have he : attachedBy state d = [] := by
      simp only [attachedBy, List.flatMap_eq_nil_iff]
      exact fun slot hs => h slot ⟨d, hd, hs⟩
    simp [he]

/-- Closed form of `slotRet` on an event with a concrete stack pointer. -/
theorem slotRet_eq (fm : FunctionMonitor) (state : S2EExecutionState) (esp fuel : Nat)
    (hesp : state.esp = some esp)
    (hfuel : (fm.m_returnDescriptors.filter (retMatches state.id state.cr3 esp)).length < fuel) :
    slotRet fuel fm state
      = some ({ fm with m_returnDescriptors :=
                  (fm.m_returnDescriptors.filter (fun e => !retMatches state.id state.cr3 esp e)) },
              (fm.m_returnDescriptors.filter (retMatches state.id state.cr3 esp)).flatMap
                (fun e => emitRet e.2.signal)) := by
  simp only [slotRet, hesp, slotRetLoop_eq state.id state.cr3 esp fuel _ hfuel, Option.map_some']

theorem slotCall_ordered (fm : FunctionMonitor) (state : S2EExecutionState)
    (h : Multimap.ordered fm.m_returnDescriptors) :
    Multimap.ordered (slotCall fm state).1.m_returnDescriptors := by
  cases hesp : state.esp with
  | none => simpa only [slotCall, hesp] using h
  | some esp =>
    rw [slotCall_eq fm state esp hesp]
    exact Multimap.ordered_insertAll _ _ _ h

theorem slotCall_callDescriptors (fm : FunctionMonitor) (state : S2EExecutionState) :
    (slotCall fm state).1.m_callDescriptors = fm.m_callDescriptors := by
  cases hesp : state.esp with
  | none => simp only [slotCall, hesp]
  | some esp => rw [slotCall_eq fm state esp hesp]

/-- A call only adds entries: those matching a given (state, `cr3`, key) are
the former ones followed by new ones. -/
theorem slotCall_keeps_matching (fm : FunctionMonitor) (state : S2EExecutionState)
    (sid cr3 esp : Nat) (h : Multimap.ordered fm.m_returnDescriptors) :
    ∃ extra, (slotCall fm state).1.m_returnDescriptors.filter (retMatches sid cr3 esp)
      = fm.m_returnDescriptors.filter (retMatches sid cr3 esp) ++ extra := by
  cases hesp : state.esp with
  | none => exact ⟨[], by simp only [slotCall, hesp, List.append_nil]⟩
  | some esp1 =>
    rw [slotCall_eq fm state esp1 hesp]
    by_cases hk : esp1 = esp
    · subst hk
      refine ⟨_, Multimap.filter_insertAll_same esp1 _ _ _ ?_ h⟩
      intro e he
      simp only [retMatches, decide_eq_true_eq] at he
      exact he.1
    · refine ⟨[], ?_⟩
      rw [List.append_nil]
      apply Multimap.filter_insertAll_other
      intro v _
      simp only [retMatches, decide_eq_false_iff_not]
      exact fun hc => hk hc.1

/-- An event other than a return for (state `sid`, `cr3`, key `esp`) is
handled, keeps the table ordered and the call registry as it is, and keeps
the entries matching (`sid`, `cr3`, `esp`), possibly followed by new ones. -/
theorem onEvent_keeps_matching (fm : FunctionMonitor) (ev : Event) (sid cr3 esp : Nat)
    (h : Multimap.ordered fm.m_returnDescriptors)
    (hev : ∀ st, ev = Event.ret st → ¬ (st.esp = some esp ∧ st.id = sid ∧ st.cr3 = cr3)) :
    ∃ fm1 log extra, onEvent fm ev = some (fm1, log)
      ∧ Multimap.ordered fm1.m_returnDescriptors
      ∧ fm1.m_callDescriptors = fm.m_callDescriptors
      ∧ fm1.m_returnDescriptors.filter (retMatches sid cr3 esp)
          = fm.m_returnDescriptors.filter (retMatches sid cr3 esp) ++ extra := by
  cases ev with
  | call st =>
    obtain ⟨extra, hx⟩ := slotCall_keeps_matching fm st sid cr3 esp h
    exact ⟨(slotCall fm st).1, (slotCall fm st).2, extra, rfl, slotCall_ordered fm st h,
      slotCall_callDescriptors fm st, hx⟩
  | ret st =>
    cases hesp : st.esp with
    | none =>
      exact ⟨fm, [Notification.symbolicEspRet st.eip st.cr3], [],
        by simp only [onEvent, slotRet, hesp], h, rfl, by simp⟩
    | some esp1 =>
      have hfuel : (fm.m_returnDescriptors.filter (retMatches st.id st.cr3 esp1)).length
          < fm.m_returnDescriptors.length + 1 :=
        Nat.lt_succ_of_le (List.length_filter_le _ _)
      refine ⟨{ fm with m_returnDescriptors :=
          (fm.m_returnDescriptors.filter (fun e => !retMatches st.id st.cr3 esp1 e)) },
        (fm.m_returnDescriptors.filter (retMatches st.id st.cr3 esp1)).flatMap
          (fun e => emitRet e.2.signal), [],
        by simp only [onEvent]; exact slotRet_eq fm st esp1 _ hesp hfuel,
        List.Pairwise.filter _ h, rfl, ?_⟩
      rw [List.append_nil, List.filter_filter]
      apply List.filter_congr
      intro e _
      have hne := hev st rfl
      cases hm : retMatches sid cr3 esp e with
      | false => rfl
      | true =>
        simp only [retMatches, decide_eq_true_eq] at hm
        have : retMatches st.id st.cr3 esp1 e = false := by
          simp only [retMatches, decide_eq_false_iff_not]
          intro hc
          apply hne
          refine ⟨?_, ?_, ?_⟩
          · rw [hesp, ← hc.1, hm.1]
          · rw [← hc.2.1, hm.2.1]
          · rw [← hc.2.2, hm.2.2]
        simp [this]

/-- A sequence of events none of which is a return for (state `sid`, `cr3`,
key `esp`) is handled to the end and keeps the entries matching
(`sid`, `cr3`, `esp`), possibly followed by new ones. -/
theorem run_keeps_matching (evs : List Event) (fm : FunctionMonitor) (sid cr3 esp : Nat)
    (h : Multimap.ordered fm.m_returnDescriptors)
    (hevs : ∀ ev ∈ evs, ∀ st, ev = Event.ret st →
      ¬ (st.esp = some esp ∧ st.id = sid ∧ st.cr3 = cr3)) :
    ∃ fm1 log extra, run fm evs = some (fm1, log)
      ∧ Multimap.ordered fm1.m_returnDescriptors
      ∧ fm1.m_callDescriptors = fm.m_callDescriptors
      ∧ fm1.m_returnDescriptors.filter (retMatches sid cr3 esp)
          = fm.m_returnDescriptors.filter (retMatches sid cr3 esp) ++ extra := by
  induction evs generalizing fm with
  | nil => exact ⟨fm, [], [], rfl, h, rfl, by simp⟩
  | cons ev evs ih =>
    obtain ⟨fm1, log1, x1, h1, h2, h3, h4⟩ :=
      onEvent_keeps_matching fm ev sid cr3 esp h (hevs ev (List.mem_cons_self _ _))
    obtain ⟨fm2, log2, x2, k1, k2, k3, k4⟩ :=
      ih fm1 h2 (fun e he => hevs e (List.mem_cons_of_mem _ he))
    refine ⟨fm2, log1 ++ log2, x1 ++ x2, ?_, k2, k3.trans h3, ?_⟩
    · simp only [run, h1, k1, Option.map_some']
    · rw [k4, h4, List.append_assoc]

/-- Every event is handled, and the key order of the pending-return table and
the call registry are kept: the order is an invariant of the monitor. -/
theorem onEvent_ordered (fm : FunctionMonitor) (ev : Event)
    (h : Multimap.ordered fm.m_returnDescriptors) :
    ∃ fm1 log, onEvent fm ev = some (fm1, log)
      ∧ Multimap.ordered fm1.m_returnDescriptors
      ∧ fm1.m_callDescriptors = fm.m_callDescriptors := by
  cases ev with
  | call st =>
    exact ⟨(slotCall fm st).1, (slotCall fm st).2, rfl, slotCall_ordered fm st h,
      slotCall_callDescriptors fm st⟩
  | ret st =>
    cases hesp : st.esp with
    | none =>
      exact ⟨fm, [Notification.symbolicEspRet st.eip st.cr3],
        by simp only [onEvent, slotRet, hesp], h, rfl⟩
    | some esp1 =>
      have hfuel : (fm.m_returnDescriptors.filter (retMatches st.id st.cr3 esp1)).length
          < fm.m_returnDescriptors.length + 1 :=
        Nat.lt_succ_of_le (List.length_filter_le _ _)
      exact ⟨{ fm with m_returnDescriptors :=
          (fm.m_returnDescriptors.filter (fun e => !retMatches st.id st.cr3 esp1 e)) },
        (fm.m_returnDescriptors.filter (retMatches st.id st.cr3 esp1)).flatMap
          (fun e => emitRet e.2.signal),
        by simp only [onEvent]; exact slotRet_eq fm st esp1 _ hesp hfuel,
        List.Pairwise.filter _ h, rfl⟩

theorem run_ordered (evs : List Event) (fm : FunctionMonitor)
    (h : Multimap.ordered fm.m_returnDescriptors) :
    ∃ fm1 log, run fm evs = some (fm1, log)
      ∧ Multimap.ordered fm1.m_returnDescriptors
      ∧ fm1.m_callDescriptors = fm.m_callDescriptors := by
  induction evs generalizing fm with
  | nil => exact ⟨fm, [], rfl, h, rfl⟩
  | cons ev evs ih =>
    obtain ⟨fm1, log1, h1, h2, h3⟩ := onEvent_ordered fm ev h
    obtain ⟨fm2, log2, k1, k2, k3⟩ := ih fm1 h2
    exact ⟨fm2, log1 ++ log2, by simp only [run, h1, k1, Option.map_some'], k2, k3.trans h3⟩

/-- The loop of `slotRet` runs out of fuel exactly when the fuel does not exceed
the number of matching entries: its body runs once per matching entry and once
more. -/
theorem slotRetLoop_eq_none_iff (state cr3 esp : Nat) (fuel : Nat)
    (m : Multimap ReturnDescriptor) :
    slotRetLoop state cr3 esp fuel m = none
      ↔ fuel ≤ (m.filter (retMatches state cr3 esp)).length := by
  induction fuel generalizing m with
  | zero => simp [slotRetLoop]
  | succ fuel ih =>
    simp only [slotRetLoop]
    cases hs : slotRetScan state cr3 esp m with
    | none =>
      obtain ⟨h1, _⟩ := slotRetScan_none state cr3 esp m hs
      simp [h1]
    | some r =>
      obtain ⟨signal, m1⟩ := r
      obtain ⟨⟨e, _, _, he3⟩, _, _⟩ := slotRetScan_some state cr3 esp m m1 signal hs
      simp only [Option.map_eq_none', ih m1, he3, List.length_cons, Nat.add_le_add_iff_right]

end FunctionMonitor

/-! ## The claims on the payload codec -/

namespace ExecutionTraceTestCase

theorem pair_le_encodedSize (inputs : ConcreteInputs) (p : VarValuePair) (hp : p ∈ inputs) :
    sizeofHeader + p.1.length + p.2.length ≤ encodedSize inputs := by
  induction inputs with
  | nil => simp at hp
  | cons it rest ih =>
    simp only [encodedSize]
    rcases List.mem_cons.mp hp with h | h
    · subst h; omega
    · have := ih h; omega

theorem serialize_size_eq (inputs : ConcreteInputs) (hsize : encodedSize inputs < 2 ^ 32) :
    (serialize inputs).size = encodedSize inputs := by
  simp only [serialize]
  rw [serializeBufsize_eq inputs 0 (by norm_num), Nat.zero_add, Nat.mod_eq_of_lt hsize]

/-- Decoding what `serialize` wrote, with the length it takes, returns the
list, provided the pair lengths fit 32 bits and the total fits `size_t`. -/
theorem deserialize_serializeWrite (inputs : ConcreteInputs) (fuel : Nat)
    (hfit : ∀ p ∈ inputs, p.1.length < 2 ^ 32 ∧ p.2.length < 2 ^ 32)
    (htot : encodedSize inputs < 2 ^ 64) (hfuel : inputs.length < fuel) :
    deserialize fuel (serializeWrite inputs) (encodedSize inputs) [] = .returned inputs := by
  unfold deserialize
  rw [Nat.mod_eq_of_lt htot, deserializeLoop_serializeWrite inputs fuel [] hfit htot hfuel]
  simp

/-- C1. Round trip: for every list of (name, data) pairs whose total encoded
size fits in 32 bits, `deserialize` applied to the buffer and the size produced
by `serialize`, with an empty output list, returns (given one unit of fuel per
pair plus one) exactly the original list, in the same order. -/
theorem deserialize_serialize (inputs : ConcreteInputs) (fuel : Nat)
    (hsize : encodedSize inputs < 2 ^ 32) (hfuel : inputs.length < fuel) :
    deserialize fuel (serialize inputs).buf (serialize inputs).size [] = .returned inputs := by
  rw [serialize_size_eq inputs hsize]
  apply deserialize_serializeWrite inputs fuel _ (by omega) hfuel
  intro p hp
  have := pair_le_encodedSize inputs p hp
  simp only [sizeofHeader] at this
  omega

/-- Witness of C1 on a list with an empty pair and a pair with binary data. -/
theorem deserialize_serialize_witness :
    encodedSize sampleInputs < 2 ^ 32 ∧ sampleInputs.length < 3
      ∧ deserialize 3 (serialize sampleInputs).buf (serialize sampleInputs).size []
          = .returned sampleInputs :=
  ⟨by decide, by decide, deserialize_serialize sampleInputs 3 (by decide) (by decide)⟩

theorem deserializeLoop_truncatedBuf (fuel : Nat) :
    deserializeLoop (fuel + 1) truncatedBuf 9 [] = .readPastEnd [([], [0x41])] := by
  rfl

/-- C8 (the code at the failing input). The nine-byte buffer `truncatedBuf` is
the encoding of no list of pairs (its only tuple declares two data bytes and
has one), and on it `deserialize`, whatever the fuel, neither returns nor
reports an error: it pushes the pair, reads its one data byte and then
dereferences the byte past the end of the buffer, with the partial pair
already in `out`. -/
theorem deserialize_truncated_reads_past_end :
    (∀ inputs : ConcreteInputs, serializeWrite inputs ≠ truncatedBuf)
      ∧ ∀ fuel : Nat, deserialize (fuel + 1) truncatedBuf truncatedBuf.length []
          = .readPastEnd [([], [0x41])] := by
  refine ⟨?_, fun fuel => deserializeLoop_truncatedBuf fuel⟩
  intro inputs h
  have hlen : encodedSize inputs = 9 := by
    rw [← length_serializeWrite, h]; rfl
  have hfit : ∀ p ∈ inputs, p.1.length < 2 ^ 32 ∧ p.2.length < 2 ^ 32 := by
    intro p hp
    have := pair_le_encodedSize inputs p hp
    simp only [sizeofHeader] at this
    omega
  have hrun := deserializeLoop_serializeWrite inputs (inputs.length + 1) [] hfit (by omega)
    (Nat.lt_succ_self _)
  rw [h, hlen, deserializeLoop_truncatedBuf] at hrun
  cases hrun

/-- For a buffer shorter than `2^64` bytes passed with its true length and an
empty output list: whenever `deserialize` returns, the buffer is exactly the
concatenation of the tuples of the returned list, whose lengths fit the 32-bit
header fields; and on every such concatenation `deserialize` does return that
list, given one unit of fuel per pair plus one. -/
theorem deserialize_returns_iff_exact (buf : List Byte) (out : ConcreteInputs)
    (h64 : buf.length < 2 ^ 64) :
    (∀ fuel, deserialize fuel buf buf.length [] = .returned out →
        buf = (serialize out).buf ∧ buf.length = encodedSize out
          ∧ ∀ p ∈ out, p.1.length < 2 ^ 32 ∧ p.2.length < 2 ^ 32)
      ∧ ((buf = (serialize out).buf ∧ ∀ p ∈ out, p.1.length < 2 ^ 32 ∧ p.2.length < 2 ^ 32) →
          ∀ fuel, out.length < fuel → deserialize fuel buf buf.length [] = .returned out) := by
  constructor
  · intro fuel h
    unfold deserialize at h
    rw [Nat.mod_eq_of_lt h64] at h
    obtain ⟨l, hl1, hl2, _, hl4⟩ := deserializeLoop_returned fuel buf [] out h h64
    simp only [List.nil_append] at hl1
    subst hl1
    exact ⟨hl2, by rw [hl2, length_serializeWrite], hl4⟩
  · rintro ⟨hbuf, hfit⟩ fuel hfuel
    have hb : buf = serializeWrite out := hbuf
    subst hb
    rw [length_serializeWrite] at h64 ⊢
    exact deserialize_serializeWrite out fuel hfit h64 hfuel

end ExecutionTraceTestCase

/-! ## The claims on the function monitor -/

namespace FunctionMonitor

/-- C2 (counterexample). In `pendingTable` two entries match the return
`(sp 0x7000, ctx 1, space 1)`; one call of `slotRet` fires the return slots of
both (`10`, then `20`) and removes both, so no second matching entry remains
pending. -/
theorem slotRet_two_matches_both_resolved :
    (pendingTable.filter (retMatches 1 1 0x7000)).length = 2
      ∧ (slotRet 3 monitorPending retEvent).map (fun r => (r.1.m_returnDescriptors, r.2))
          = some ([(0x6000, { state := 1, cr3 := 1, signal := [5] }),
                   (0x7000, { state := 2, cr3 := 1, signal := [6] }),
                   (0x7000, { state := 1, cr3 := 2, signal := [7] })],
                  [Notification.ret 10, Notification.ret 20]) := by
  decide

/-- C2 (as amended). For every pending-return table and every return event with
a concrete stack pointer, `slotRet` (given more fuel than there are matching
entries) resolves every entry matching the return (stack pointer, execution
state, address space): the return slots of all `k` matching entries fire, in
insertion order, all `k` entries are removed, and no matching entry remains. -/
theorem slotRet_resolves_every_match (fm : FunctionMonitor) (state : S2EExecutionState)
    (esp fuel : Nat) (hesp : state.esp = some esp)
    (hfuel : (fm.m_returnDescriptors.filter (retMatches state.id state.cr3 esp)).length < fuel) :
    ∃ fm1, slotRet fuel fm state
        = some (fm1, (fm.m_returnDescriptors.filter (retMatches state.id state.cr3 esp)).flatMap
            (fun e => e.2.signal.map Notification.ret))
      ∧ fm1.m_returnDescriptors.filter (retMatches state.id state.cr3 esp) = []
      ∧ fm1.m_returnDescriptors.length
          + (fm.m_returnDescriptors.filter (retMatches state.id state.cr3 esp)).length
          = fm.m_returnDescriptors.length := by
  refine ⟨{ fm with m_returnDescriptors :=
    fm.m_returnDescriptors.filter (fun e => !retMatches state.id state.cr3 esp e) }, ?_, ?_, ?_⟩
  · simp only [slotRet, hesp, slotRetLoop_eq state.id state.cr3 esp fuel _ hfuel, Option.map_some',
      emitRet]
  · simp [List.filter_filter]
  · show (fm.m_returnDescriptors.filter (fun e => !retMatches state.id state.cr3 esp e)).length
      + _ = _
    induction fm.m_returnDescriptors with
    | nil => rfl
    | cons e rest ih =>
      cases hm : retMatches state.id state.cr3 esp e <;>
        simp [List.filter_cons, hm] <;> omega

/-- Witness of the amended C2 on `pendingTable`. -/
theorem slotRet_resolves_every_match_witness :
    retEvent.esp = some 0x7000
      ∧ ∃ fm1, slotRet 3 monitorPending retEvent
          = some (fm1, [Notification.ret 10, Notification.ret 20])
        ∧ fm1.m_returnDescriptors.filter (retMatches retEvent.id retEvent.cr3 0x7000) = []
        ∧ fm1.m_returnDescriptors.length
            + (monitorPending.m_returnDescriptors.filter
                (retMatches retEvent.id retEvent.cr3 0x7000)).length
            = monitorPending.m_returnDescriptors.length :=
  ⟨rfl, slotRet_resolves_every_match monitorPending retEvent 0x7000 3 rfl (by decide)⟩

/-- C9. When the stack pointer cannot be read concretely, `slotCall` and
`slotRet` (whatever the fuel) only write their warning: no call slot and no
return slot is invoked, and the monitor, with both its call registry and its
pending-return table, is returned unchanged. -/
theorem symbolic_esp_event_dropped (fm : FunctionMonitor) (state : S2EExecutionState)
    (fuel : Nat) (hesp : state.esp = none) :
    slotCall fm state = (fm, [Notification.symbolicEspCall state.eip state.cr3])
      ∧ slotRet fuel fm state = some (fm, [Notification.symbolicEspRet state.eip state.cr3])
      ∧ (∀ id, Notification.call id ∉ (slotCall fm state).2
          ∧ Notification.ret id ∉ (slotCall fm state).2)
      ∧ (∀ fm1 log, slotRet fuel fm state = some (fm1, log) →
          fm1.m_callDescriptors = fm.m_callDescriptors
            ∧ fm1.m_returnDescriptors = fm.m_returnDescriptors
            ∧ ∀ id, Notification.call id ∉ log ∧ Notification.ret id ∉ log) := by
  have h1 : slotCall fm state = (fm, [Notification.symbolicEspCall state.eip state.cr3]) := by
    simp only [slotCall, hesp]
  have h2 : slotRet fuel fm state
      = some (fm, [Notification.symbolicEspRet state.eip state.cr3]) := by
    simp only [slotRet, hesp]
  refine ⟨h1, h2, ?_, ?_⟩
  · intro id
    rw [h1]
    simp
  · intro fm1 log h
    rw [h2] at h
    simp only [Option.some.injEq, Prod.mk.injEq] at h
    obtain ⟨hfm, hlog⟩ := h
    subst hfm hlog
    simp

/-- Witness of C9 on an event with a symbolic stack pointer. -/
theorem symbolic_esp_event_dropped_witness :
    symbolicEvent.esp = none
      ∧ (slotCall monitorAB symbolicEvent).2 = [Notification.symbolicEspCall 0x1000 1]
      ∧ (slotRet 0 monitorPending symbolicEvent).map (fun r => (r.1.m_returnDescriptors, r.2))
          = some (pendingTable, [Notification.symbolicEspRet 0x1000 1]) :=
  ⟨rfl,
   congrArg Prod.snd (symbolic_esp_event_dropped monitorAB symbolicEvent 0 rfl).1,
   congrArg (Option.map (fun r => (r.1.m_returnDescriptors, r.2)))
     (symbolic_esp_event_dropped monitorPending symbolicEvent 0 rfl).2.1⟩

/-- C10. For every pending-return table and every return event with a concrete
stack pointer, `slotRet` (given more fuel than there are matching entries)
leaves exactly the entries that differ from the event in key, execution state
or address space, in their order; every return slot it fires belongs to an
entry whose key is the stack pointer, whose state is the event's state and
whose `cr3` is the event's `cr3`; and if no entry matches, nothing fires and
the monitor is unchanged. -/
theorem slotRet_touches_only_matching (fm : FunctionMonitor) (state : S2EExecutionState)
    (esp fuel : Nat) (hesp : state.esp = some esp)
    (hfuel : (fm.m_returnDescriptors.filter (retMatches state.id state.cr3 esp)).length < fuel) :
    ∃ log, slotRet fuel fm state
        = some ({ fm with m_returnDescriptors := (fm.m_returnDescriptors.filter
                    (fun e => ¬ (e.1 = esp ∧ e.2.state = state.id ∧ e.2.cr3 = state.cr3))) }, log)
      ∧ (∀ n ∈ log, ∃ e ∈ fm.m_returnDescriptors,
          (e.1 = esp ∧ e.2.state = state.id ∧ e.2.cr3 = state.cr3)
            ∧ ∃ id ∈ e.2.signal, n = Notification.ret id)
      ∧ ((∀ e ∈ fm.m_returnDescriptors,
            ¬ (e.1 = esp ∧ e.2.state = state.id ∧ e.2.cr3 = state.cr3)) →
          slotRet fuel fm state = some (fm, [])) := by
  have hpred : (fun e : Nat × ReturnDescriptor => !retMatches state.id state.cr3 esp e)
      = (fun e => decide (¬ (e.1 = esp ∧ e.2.state = state.id ∧ e.2.cr3 = state.cr3))) := by
    funext e
    simp [retMatches]
  have hrun := slotRetLoop_eq state.id state.cr3 esp fuel fm.m_returnDescriptors hfuel
  refine ⟨(fm.m_returnDescriptors.filter (retMatches state.id state.cr3 esp)).flatMap
    (fun e => emitRet e.2.signal), ?_, ?_, ?_⟩
  · simp only [slotRet, hesp, hrun, Option.map_some', hpred]
  · intro n hn
    simp only [List.mem_flatMap, List.mem_filter, emitRet, List.mem_map] at hn
    obtain ⟨e, ⟨he1, he2⟩, id, hid1, hid2⟩ := hn
    refine ⟨e, he1, ?_, id, hid1, hid2.symm⟩
    simpa [retMatches] using he2
  · intro hnone
    have h1 : fm.m_returnDescriptors.filter (retMatches state.id state.cr3 esp) = [] := by
      rw [List.filter_eq_nil_iff]
      intro e he
      have := hnone e he
      simpa [retMatches] using this
    have h2 : fm.m_returnDescriptors.filter
        (fun e => !retMatches state.id state.cr3 esp e) = fm.m_returnDescriptors := by
      rw [List.filter_eq_self]
      intro e he
      have := hnone e he
      simp only [retMatches, Bool.not_eq_true', decide_eq_false_iff_not]
      exact this
    simp only [slotRet, hesp, hrun, Option.map_some', h1, h2, List.flatMap_nil]

/-- Witness of C10 on `pendingTable`. -/
theorem slotRet_touches_only_matching_witness :
    retEvent.esp = some 0x7000
      ∧ ∃ log, slotRet 3 monitorPending retEvent
          = some ({ monitorPending with m_returnDescriptors :=
                      (monitorPending.m_returnDescriptors.filter
                        (fun e => ¬ (e.1 = 0x7000 ∧ e.2.state = retEvent.id
                          ∧ e.2.cr3 = retEvent.cr3))) }, log)
        ∧ (∀ n ∈ log, ∃ e ∈ monitorPending.m_returnDescriptors,
            (e.1 = 0x7000 ∧ e.2.state = retEvent.id ∧ e.2.cr3 = retEvent.cr3)
              ∧ ∃ id ∈ e.2.signal, n = Notification.ret id)
        ∧ ((∀ e ∈ monitorPending.m_returnDescriptors,
              ¬ (e.1 = 0x7000 ∧ e.2.state = retEvent.id ∧ e.2.cr3 = retEvent.cr3)) →
            slotRet 3 monitorPending retEvent = some (monitorPending, [])) :=
  ⟨rfl, slotRet_touches_only_matching monitorPending retEvent 0x7000 3 rfl (by decide)⟩

/-- C4 (the code at the failing input). With `slotA` registered as catch-all
`(0, 0)`, a call whose target address is `0` runs both loops of `slotCall`
over the same `equal_range(0)`: `slotA` is invoked twice, and its return slot
is made pending twice. -/
theorem slotCall_catchAll_fires_twice_at_target_zero :
    (slotCall monitorA callToZero).2 = [Notification.call 1, Notification.call 1]
      ∧ (slotCall monitorA callToZero).1.m_returnDescriptors
          = [(0x7000, { state := 1, cr3 := 1, signal := [10] }),
             (0x7000, { state := 1, cr3 := 1, signal := [10] })] := by
  decide

/-- For a call whose target address is not `0`, a slot registered once, under
a catch-all descriptor `(0, s)` with `s = 0` or `s` the `cr3` of the call, is
invoked exactly once. -/
theorem slotCall_catchAll_fires_once_of_eip_ne_zero (fm : FunctionMonitor)
    (state : S2EExecutionState) (esp s id : Nat) (d : CallDescriptor)
    (hesp : state.esp = some esp) (heip : state.eip ≠ 0)
    (hmem : (0, d) ∈ fm.m_callDescriptors) (hd : d.cr3 = s)
    (hid : id ∈ d.signal.map (fun slot => slot.id))
    (huniq : (registeredIds fm.m_callDescriptors).count id = 1)
    (hs : s = 0 ∨ s = state.cr3) :
    (slotCall fm state).2.count (Notification.call id) = 1 := by
  rw [slotCall_eq fm state esp hesp, count_call_firedSlots]
  rw [count_flatMap_filter_of_unique _ id fm.m_callDescriptors (0, d) _ huniq hmem hid,
    count_flatMap_filter_of_unique _ id fm.m_callDescriptors (0, d) _ huniq hmem hid]
  have h1 : ((0 : Nat) = 0 ∧ (d.cr3 = 0 ∨ d.cr3 = state.cr3)) := ⟨rfl, hd ▸ hs⟩
  have h2 : ¬ ((0 : Nat) = state.eip ∧ (d.cr3 = 0 ∨ d.cr3 = state.cr3)) :=
    fun h => heip h.1.symm
  rw [if_pos (decide_eq_true h1), if_neg (by rw [decide_eq_true_eq]; exact h2)]

/-- C5. For a slot registered once in the call registry, under a descriptor of
key `t ≠ 0` and `cr3` field `s`, and every call event with a concrete stack
pointer: `slotCall` invokes the slot if and only if the target `eip` is `t`
and `s` is `0` or the `cr3` of the call, and then exactly once. -/
theorem slotCall_specific_fires_iff (fm : FunctionMonitor) (state : S2EExecutionState)
    (esp t s id : Nat) (d : CallDescriptor)
    (hesp : state.esp = some esp) (ht : t ≠ 0)
    (hmem : (t, d) ∈ fm.m_callDescriptors) (hd : d.cr3 = s)
    (hid : id ∈ d.signal.map (fun slot => slot.id))
    (huniq : (registeredIds fm.m_callDescriptors).count id = 1) :
    (Notification.call id ∈ (slotCall fm state).2
        ↔ (state.eip = t ∧ (s = 0 ∨ s = state.cr3)))
      ∧ (slotCall fm state).2.count (Notification.call id)
          = if state.eip = t ∧ (s = 0 ∨ s = state.cr3) then 1 else 0 := by
  have hcount : (slotCall fm state).2.count (Notification.call id)
      = if state.eip = t ∧ (s = 0 ∨ s = state.cr3) then 1 else 0 := by
    rw [slotCall_eq fm state esp hesp, count_call_firedSlots]
    rw [count_flatMap_filter_of_unique _ id fm.m_callDescriptors (t, d) _ huniq hmem hid,
      count_flatMap_filter_of_unique _ id fm.m_callDescriptors (t, d) _ huniq hmem hid]
    subst hd
    have h1 : ¬ (t = 0 ∧ (d.cr3 = 0 ∨ d.cr3 = state.cr3)) := fun h => ht h.1
    rw [if_neg (by rw [decide_eq_true_eq]; exact h1)]
    by_cases h2 : state.eip = t ∧ (d.cr3 = 0 ∨ d.cr3 = state.cr3)
    · have h3 : t = state.eip ∧ (d.cr3 = 0 ∨ d.cr3 = state.cr3) := ⟨h2.1.symm, h2.2⟩
      rw [if_pos (decide_eq_true h3), if_pos h2]
    · have h3 : ¬ (t = state.eip ∧ (d.cr3 = 0 ∨ d.cr3 = state.cr3)) :=
        fun h => h2 ⟨h.1.symm, h.2⟩
      rw [if_neg (by rw [decide_eq_true_eq]; exact h3), if_neg h2]
  refine ⟨?_, hcount⟩
  rw [← List.count_pos_iff, hcount]
  by_cases h : state.eip = t ∧ (s = 0 ∨ s = state.cr3) <;> simp [h]

/-- Witness of C5 on the scenario of the spec: `slotB`, registered at
`(0x1000, 1)`, for the call to `0x1000` in address space `1`. -/
theorem slotCall_specific_fires_iff_witness :
    callEvent.esp = some 0x7000
      ∧ (registeredIds monitorAB.m_callDescriptors).count 2 = 1
      ∧ (slotCall monitorAB callEvent).2.count (Notification.call 2)
          = if callEvent.eip = 0x1000 ∧ ((1 : Nat) = 0 ∨ 1 = callEvent.cr3) then 1 else 0 :=
  ⟨rfl, by decide,
   (slotCall_specific_fires_iff monitorAB callEvent 0x7000 0x1000 1 2
      { cr3 := 1, signal := [slotB] } rfl (by decide) (by simp [monitorAB, registerCall,
        getCallSignal, findCallDescriptor, connect, Multimap.insert, Multimap.upper_bound,
        List.modify]) rfl
      (by simp [slotB]) (by decide)).2⟩

/-- C7. For every call event with a concrete stack pointer, the slots invoked
are `firedSlots`, and `slotCall` changes the pending-return table (equally:
its entry count) if and only if one of the invoked slots attached a return
slot; in particular when no slot is invoked, or none attaches anything, the
table is unchanged. -/
theorem slotCall_changes_table_iff (fm : FunctionMonitor) (state : S2EExecutionState)
    (esp : Nat) (hesp : state.esp = some esp) :
    (slotCall fm state).2 = (firedSlots fm state).map (fun slot => Notification.call slot.id)
      ∧ ((slotCall fm state).1.m_returnDescriptors ≠ fm.m_returnDescriptors
          ↔ ∃ slot ∈ firedSlots fm state, slot.run state ≠ [])
      ∧ ((slotCall fm state).1.m_returnDescriptors.length ≠ fm.m_returnDescriptors.length
          ↔ ∃ slot ∈ firedSlots fm state, slot.run state ≠ [])
      ∧ (firedSlots fm state = [] →
          (slotCall fm state).1.m_returnDescriptors = fm.m_returnDescriptors) := by
  have hlen : (slotCall fm state).1.m_returnDescriptors.length
      = fm.m_returnDescriptors.length + (newReturnDescriptors fm state).length := by
    rw [slotCall_eq fm state esp hesp]
    exact Multimap.length_insertAll _ _ _
  have hnil : newReturnDescriptors fm state = [] →
      (slotCall fm state).1.m_returnDescriptors = fm.m_returnDescriptors := by
    intro h
    rw [slotCall_eq fm state esp hesp]
    simp only [h]
    rfl
  have hiff := newReturnDescriptors_eq_nil_iff fm state
  have hex : (∃ slot ∈ firedSlots fm state, slot.run state ≠ [])
      ↔ newReturnDescriptors fm state ≠ [] := by
    rw [Ne, hiff]
    push_neg
    rfl
  refine ⟨by rw [slotCall_eq fm state esp hesp], ?_, ?_, ?_⟩
  · rw [hex]
    constructor
    · intro hne hn
      exact hne (hnil hn)
    · intro hne heq
      rw [heq] at hlen
      have : (newReturnDescriptors fm state).length = 0 := by omega
      exact hne (List.length_eq_zero.mp this)
  · rw [hex]
    constructor
    · intro hne hn
      rw [hn] at hlen
      exact hne hlen
    · intro hne heq
      have : (newReturnDescriptors fm state).length = 0 := by omega
      exact hne (List.length_eq_zero.mp this)
  · intro h
    apply hnil
    rw [hiff, h]
    simp

/-- Witness of C7 on the scenario of the spec. -/
theorem slotCall_changes_table_iff_witness :
    callEvent.esp = some 0x7000
      ∧ ((slotCall monitorAB callEvent).1.m_returnDescriptors ≠ monitorAB.m_returnDescriptors
          ↔ ∃ slot ∈ firedSlots monitorAB callEvent, slot.run callEvent ≠ []) :=
  ⟨rfl, (slotCall_changes_table_iff monitorAB callEvent 0x7000 rfl).2.1⟩

/-- C6 (counterexample). In the scenario of the spec both the catch-all slot
`slotA` and the specific slot `slotB` attach a return slot during one call;
`slotCall` then makes two pending entries, one per emitted call signal, not a
single entry holding both return slots. -/
theorem slotCall_two_signals_two_entries :
    (slotCall monitorAB callEvent).2 = [Notification.call 1, Notification.call 2]
      ∧ (slotCall monitorAB callEvent).1.m_returnDescriptors
          = [(0x7000, { state := 1, cr3 := 1, signal := [10] }),
             (0x7000, { state := 1, cr3 := 1, signal := [20] })] := by
  decide

/-- C6 (as amended). For every call event with a concrete stack pointer (and a
pending-return table ordered by key), `slotCall` creates one pending entry per
emitted call signal whose slots attached at least one return slot
(`newReturnDescriptors`): the entries of key `esp` afterwards are the former
ones followed by the new ones in emission order, the entries of every other
key are unchanged, the new entries together hold the return slots attached
during the call, in order, and each is tagged with the state and the `cr3` of
the call and is not empty. -/
theorem slotCall_one_entry_per_emitted_signal (fm : FunctionMonitor)
    (state : S2EExecutionState) (esp : Nat) (hesp : state.esp = some esp)
    (hord : Multimap.ordered fm.m_returnDescriptors) :
    Multimap.equal_range esp (slotCall fm state).1.m_returnDescriptors
        = Multimap.equal_range esp fm.m_returnDescriptors ++ newReturnDescriptors fm state
      ∧ (∀ k, k ≠ esp → Multimap.equal_range k (slotCall fm state).1.m_returnDescriptors
          = Multimap.equal_range k fm.m_returnDescriptors)
      ∧ (slotCall fm state).1.m_returnDescriptors.length
          = fm.m_returnDescriptors.length + (newReturnDescriptors fm state).length
      ∧ (newReturnDescriptors fm state).flatMap (fun r => r.signal)
          = attachedDuringCall fm state
      ∧ ∀ d ∈ newReturnDescriptors fm state,
          d.state = state.id ∧ d.cr3 = state.cr3 ∧ d.signal ≠ []
            ∧ ∃ c ∈ emittedDescriptors fm state, d.signal = attachedBy state c := by
  rw [slotCall_eq fm state esp hesp]
  refine ⟨?_, ?_, Multimap.length_insertAll _ _ _, newReturnDescriptors_signals fm state,
    newReturnDescriptors_spec fm state⟩
  · simp only [Multimap.equal_range]
    rw [Multimap.filter_insertAll_same esp _ _ _ (by intro e he; simpa using he) hord]
    have hall : (List.map (fun v => (esp, v)) (newReturnDescriptors fm state)).filter
        (fun e => decide (e.1 = esp)) = List.map (fun v => (esp, v)) (newReturnDescriptors fm state) := by
      rw [List.filter_eq_self]
      intro e he
      simp only [List.mem_map] at he
      obtain ⟨v, _, hv⟩ := he
      subst hv
      simp
    rw [hall, List.map_append, List.map_map]
    congr 1
    simp [Function.comp_def]
  · intro k hk
    simp only [Multimap.equal_range]
    rw [Multimap.filter_insertAll_other esp _ _ _ (by intro v _; simpa using fun h => hk h.symm)]

/-- Witness of the amended C6 on the scenario of the spec. -/
theorem slotCall_one_entry_per_emitted_signal_witness :
    callEvent.esp = some 0x7000 ∧ Multimap.ordered monitorAB.m_returnDescriptors
      ∧ Multimap.equal_range 0x7000 (slotCall monitorAB callEvent).1.m_returnDescriptors
          = Multimap.equal_range 0x7000 monitorAB.m_returnDescriptors
              ++ newReturnDescriptors monitorAB callEvent :=
  ⟨rfl, List.Pairwise.nil,
   (slotCall_one_entry_per_emitted_signal monitorAB callEvent 0x7000 rfl List.Pairwise.nil).1⟩

/-- C16. For every monitor and every call or return event, with or without a
concrete stack pointer, `slotCall` and `slotRet` (given more fuel than the
pending table has entries) return the call registry as it was: the same
descriptors with the same slots in the same order. -/
theorem slots_keep_call_registry (fm : FunctionMonitor) (state : S2EExecutionState)
    (fuel : Nat) (hfuel : fm.m_returnDescriptors.length < fuel) :
    (slotCall fm state).1.m_callDescriptors = fm.m_callDescriptors
      ∧ ∃ fm1 log, slotRet fuel fm state = some (fm1, log)
          ∧ fm1.m_callDescriptors = fm.m_callDescriptors := by
  refine ⟨slotCall_callDescriptors fm state, ?_⟩
  cases hesp : state.esp with
  | none =>
    exact ⟨fm, [Notification.symbolicEspRet state.eip state.cr3],
      by simp only [slotRet, hesp], rfl⟩
  | some esp =>
    have hlt : (fm.m_returnDescriptors.filter (retMatches state.id state.cr3 esp)).length
        < fuel := Nat.lt_of_le_of_lt (List.length_filter_le _ _) hfuel
    exact ⟨_, _, slotRet_eq fm state esp fuel hesp hlt, rfl⟩

/-- Witness of C16 on the scenario of the spec. -/
theorem slots_keep_call_registry_witness :
    monitorAB.m_returnDescriptors.length < 1
      ∧ (slotCall monitorAB callEvent).1.m_callDescriptors = monitorAB.m_callDescriptors
      ∧ ∃ fm1 log, slotRet 1 monitorAB retEvent = some (fm1, log)
          ∧ fm1.m_callDescriptors = monitorAB.m_callDescriptors :=
  ⟨by decide, slots_keep_call_registry monitorAB callEvent 1 (by decide) |>.1,
   slots_keep_call_registry monitorAB retEvent 1 (by decide) |>.2⟩

/-- C19. For every pending-return table and every return event with a concrete
stack pointer: a run of the loop body of `slotRet` that finds a match leaves a
table with exactly one matching entry less, a run that finds none ends the
loop with the table as it is, and `slotRet` returns exactly when it is allowed
more runs of the loop body than there are matching entries: the loop ends
after (number of matching entries + 1) runs of its body, and not before. -/
theorem slotRet_terminates_after_matches_plus_one (fm : FunctionMonitor)
    (state : S2EExecutionState) (esp : Nat) (hesp : state.esp = some esp) :
    (∀ signal m1, slotRetScan state.id state.cr3 esp fm.m_returnDescriptors = some (signal, m1) →
        (m1.filter (retMatches state.id state.cr3 esp)).length + 1
          = (fm.m_returnDescriptors.filter (retMatches state.id state.cr3 esp)).length)
      ∧ (slotRetScan state.id state.cr3 esp fm.m_returnDescriptors = none →
          fm.m_returnDescriptors.filter (retMatches state.id state.cr3 esp) = []
            ∧ slotRet 1 fm state = some (fm, []))
      ∧ (∀ fuel, (slotRet fuel fm state).isSome
          ↔ (fm.m_returnDescriptors.filter (retMatches state.id state.cr3 esp)).length + 1
              ≤ fuel) := by
  refine ⟨?_, ?_, ?_⟩
  · intro signal m1 h
    obtain ⟨⟨e, _, _, he3⟩, _, _⟩ := slotRetScan_some _ _ _ _ m1 signal h
    rw [he3, List.length_cons]
  · intro h
    obtain ⟨h1, _⟩ := slotRetScan_none _ _ _ _ h
    refine ⟨h1, ?_⟩
    simp only [slotRet, hesp, slotRetLoop, h, Option.map_some']
  · intro fuel
    simp only [slotRet, hesp, Option.isSome_map']
    rw [← Option.ne_none_iff_isSome, Ne, slotRetLoop_eq_none_iff]
    omega

/-- Witness of C19 on `pendingTable`: two matching entries, three runs. -/
theorem slotRet_terminates_after_matches_plus_one_witness :
    retEvent.esp = some 0x7000
      ∧ ((slotRet 3 monitorPending retEvent).isSome
          ↔ (monitorPending.m_returnDescriptors.filter
              (retMatches retEvent.id retEvent.cr3 0x7000)).length + 1 ≤ 3)
      ∧ ((slotRet 2 monitorPending retEvent).isSome
          ↔ (monitorPending.m_returnDescriptors.filter
              (retMatches retEvent.id retEvent.cr3 0x7000)).length + 1 ≤ 2) :=
  ⟨rfl,
   (slotRet_terminates_after_matches_plus_one monitorPending retEvent 0x7000 rfl).2.2 3,
   (slotRet_terminates_after_matches_plus_one monitorPending retEvent 0x7000 rfl).2.2 2⟩

/-- C12. For every call event with a concrete stack pointer and a target
address other than `0`, the notifications of `slotCall` are those of the
catch-all group followed by those of the specific-address group: the first
part holds exactly the slots of the descriptors registered at address `0` whose
`cr3` is `0` or that of the call, the second part exactly the slots of the
descriptors registered at the (non-zero) target address with such a `cr3`, so
every catch-all slot that fires does so before every specific-address slot
that fires. -/
theorem slotCall_catchAll_before_specific (fm : FunctionMonitor) (state : S2EExecutionState)
    (esp : Nat) (hesp : state.esp = some esp) (heip : state.eip ≠ 0) :
    ∃ catchAll specific : List CallSlot,
      (slotCall fm state).2
          = catchAll.map (fun slot => Notification.call slot.id)
              ++ specific.map (fun slot => Notification.call slot.id)
        ∧ (∀ slot, slot ∈ catchAll ↔
            ∃ d, (0, d) ∈ fm.m_callDescriptors ∧ (d.cr3 = 0 ∨ d.cr3 = state.cr3)
              ∧ slot ∈ d.signal)
        ∧ (∀ slot, slot ∈ specific ↔
            ∃ t d, t ≠ 0 ∧ t = state.eip ∧ (t, d) ∈ fm.m_callDescriptors
              ∧ (d.cr3 = 0 ∨ d.cr3 = state.cr3) ∧ slot ∈ d.signal) := by
  refine ⟨((Multimap.equal_range 0 fm.m_callDescriptors).filter
      (fun d => d.cr3 = 0 ∨ d.cr3 = state.cr3)).flatMap (fun d => d.signal),
    ((Multimap.equal_range state.eip fm.m_callDescriptors).filter
      (fun d => d.cr3 = 0 ∨ d.cr3 = state.cr3)).flatMap (fun d => d.signal), ?_, ?_, ?_⟩
  · rw [slotCall_eq fm state esp hesp]
    simp only [firedSlots, emittedDescriptors, List.filter_append, List.flatMap_append,
      List.map_append]
  · intro slot
    simp only [Multimap.equal_range, List.mem_flatMap, List.mem_filter, List.mem_map,
      decide_eq_true_eq]
    constructor
    · rintro ⟨d, ⟨⟨e, ⟨he1, he2⟩, rfl⟩, hc⟩, hs⟩
      exact ⟨e.2, by rw [← he2]; exact he1, hc, hs⟩
    · rintro ⟨d, hd, hc, hs⟩
      exact ⟨d, ⟨⟨(0, d), ⟨hd, rfl⟩, rfl⟩, hc⟩, hs⟩
  · intro slot
    simp only [Multimap.equal_range, List.mem_flatMap, List.mem_filter, List.mem_map,
      decide_eq_true_eq]
    constructor
    · rintro ⟨d, ⟨⟨e, ⟨he1, he2⟩, rfl⟩, hc⟩, hs⟩
      exact ⟨e.1, e.2, by rw [he2]; exact heip, he2, he1, hc, hs⟩
    · rintro ⟨t, d, _, ht, hd, hc, hs⟩
      exact ⟨d, ⟨⟨(t, d), ⟨hd, ht⟩, rfl⟩, hc⟩, hs⟩

/-- Witness of C12 on the scenario of the spec, where the notifications are
`slotA` (catch-all) and then `slotB` (registered at `0x1000`), each once. -/
theorem slotCall_catchAll_before_specific_witness :
    callEvent.esp = some 0x7000 ∧ callEvent.eip ≠ 0
      ∧ (slotCall monitorAB callEvent).2 = [Notification.call 1, Notification.call 2]
      ∧ ∃ catchAll specific : List CallSlot,
        (slotCall monitorAB callEvent).2
            = catchAll.map (fun slot => Notification.call slot.id)
                ++ specific.map (fun slot => Notification.call slot.id)
          ∧ (∀ slot, slot ∈ catchAll ↔
              ∃ d, (0, d) ∈ monitorAB.m_callDescriptors ∧ (d.cr3 = 0 ∨ d.cr3 = callEvent.cr3)
                ∧ slot ∈ d.signal)
          ∧ (∀ slot, slot ∈ specific ↔
              ∃ t d, t ≠ 0 ∧ t = callEvent.eip ∧ (t, d) ∈ monitorAB.m_callDescriptors
                ∧ (d.cr3 = 0 ∨ d.cr3 = callEvent.cr3) ∧ slot ∈ d.signal) :=
  ⟨rfl, by decide, by decide,
   slotCall_catchAll_before_specific monitorAB callEvent 0x7000 rfl (by decide)⟩

end FunctionMonitor

/-! ## The claims on the payload codec, continued -/

namespace ExecutionTraceTestCase

theorem littleEndian_storeU32 (n : Nat) (h : n < 2 ^ 32) :
    (storeU32 n).length = 4 ∧ littleEndian (storeU32 n) = n := by
  refine ⟨rfl, ?_⟩
  simp only [storeU32, littleEndian, Fin.ofNat, Fin.val_mk, Nat.reducePow, Nat.reduceAdd,
    Nat.mul_zero, Nat.add_zero]
  show n % 256 + 256 * (n / 256 % 256 + 256 * (n / 65536 % 256 + 256 * (n / 16777216 % 256))) = n
  omega

theorem serializeWrite_eq_flatMap (inputs : ConcreteInputs)
    (hfit : ∀ p ∈ inputs, p.1.length < 2 ^ 32 ∧ p.2.length < 2 ^ 32) :
    serializeWrite inputs = inputs.flatMap tupleOf := by
  induction inputs with
  | nil => rfl
  | cons it rest ih =>
    obtain ⟨hn, hd⟩ := hfit it (List.mem_cons_self _ _)
    simp only [serializeWrite, List.flatMap_cons, tupleOf, toU32_of_lt _ hn, toU32_of_lt _ hd,
      ih (fun p hp => hfit p (List.mem_cons_of_mem _ hp))]

theorem encodedSize_eq_sum (inputs : ConcreteInputs) :
    encodedSize inputs = (inputs.map (fun p => 8 + p.1.length + p.2.length)).sum := by
  induction inputs with
  | nil => rfl
  | cons it rest ih => simp only [encodedSize, sizeofHeader, List.map_cons, List.sum_cons, ih]

/-- What `serialize` does with a single pair whose name has exactly `2^32 + 5`
bytes and whose data is empty: the size it computes, the bytes it writes, how
many they are, and the number its first four bytes (the `nameSize` field)
denote. -/
theorem serialize_name_of_length_two_pow_32_add_5 (name : List Byte)
    (h : name.length = 2 ^ 32 + 5) :
    (serialize [(name, [])]).size = 13
      ∧ (serialize [(name, [])]).buf = [5, 0, 0, 0, 0, 0, 0, 0] ++ name
      ∧ (serialize [(name, [])]).buf.length = 2 ^ 32 + 13
      ∧ littleEndian ((serialize [(name, [])]).buf.take 4) = 5 := by
  have hbuf : (serialize [(name, [])]).buf = [5, 0, 0, 0, 0, 0, 0, 0] ++ name := by
    simp only [serialize, serializeWrite, h, List.length_nil, toU32, storeU32]
    norm_num
    decide
  refine ⟨?_, hbuf, ?_, ?_⟩
  · simp only [serialize, serializeBufsize, sizeofHeader, h, List.length_nil, toU32]
    norm_num
  · rw [hbuf, List.length_append, h]
    rfl
  · rw [hbuf]
    rfl

/-- C13. For every list of pairs whose total encoded size fits in 32 bits, the
bytes `serialize` writes are the concatenation, in list order, of one tuple per
pair: four bytes that read little-endian as the name length, four bytes that
read little-endian as the data length, the name bytes, the data bytes, and
nothing else; the size it reports is the sum over the pairs of
`8 + |name| + |data|`, which is also the number of bytes written. -/
theorem serialize_layout (inputs : ConcreteInputs) (hsize : encodedSize inputs < 2 ^ 32) :
    (serialize inputs).buf = inputs.flatMap tupleOf
      ∧ (∀ p ∈ inputs,
          (storeU32 p.1.length).length = 4 ∧ littleEndian (storeU32 p.1.length) = p.1.length
            ∧ (storeU32 p.2.length).length = 4
            ∧ littleEndian (storeU32 p.2.length) = p.2.length)
      ∧ (serialize inputs).size = (inputs.map (fun p => 8 + p.1.length + p.2.length)).sum
      ∧ (serialize inputs).buf.length = (serialize inputs).size := by
  have hfit : ∀ p ∈ inputs, p.1.length < 2 ^ 32 ∧ p.2.length < 2 ^ 32 := by
    intro p hp
    have := pair_le_encodedSize inputs p hp
    simp only [sizeofHeader] at this
    omega
  refine ⟨serializeWrite_eq_flatMap inputs hfit, ?_, ?_, ?_⟩
  · intro p hp
    obtain ⟨hn, hd⟩ := hfit p hp
    exact ⟨(littleEndian_storeU32 _ hn).1, (littleEndian_storeU32 _ hn).2,
      (littleEndian_storeU32 _ hd).1, (littleEndian_storeU32 _ hd).2⟩
  · rw [serialize_size_eq inputs hsize, encodedSize_eq_sum]
  · rw [serialize_size_eq inputs hsize]
    exact length_serializeWrite inputs

/-- Witness of C13 on `sampleInputs`. -/
theorem serialize_layout_witness :
    encodedSize sampleInputs < 2 ^ 32
      ∧ (serialize sampleInputs).buf = sampleInputs.flatMap tupleOf
      ∧ (serialize sampleInputs).size
          = (sampleInputs.map (fun p => 8 + p.1.length + p.2.length)).sum :=
  ⟨by decide, (serialize_layout sampleInputs (by decide)).1,
   (serialize_layout sampleInputs (by decide)).2.2.1⟩

/-- C14 (the code at the failing input). For the single pair of `hugeName`,
whose name has `2^32 + 5` bytes, `serialize` signals nothing: it reports the
size `13`, the true size `2^32 + 13` modulo `2^32`, which is also the size of
the buffer it allocates; it stores the header bytes `5 0 0 0  0 0 0 0`, whose
`nameSize` field reads `5`, the true length modulo `2^32`; and it goes on to
write all `2^32 + 5` name bytes, `2^32 + 13` bytes in all, past the end of the
thirteen-byte buffer. -/
theorem serialize_truncates_huge_name :
    (∀ p ∈ hugeName, p.1.length = 2 ^ 32 + 5 ∧ p.2.length = 0)
      ∧ (serialize hugeName).size = 13
      ∧ (serialize hugeName).buf
          = [5, 0, 0, 0, 0, 0, 0, 0] ++ List.replicate (2 ^ 32 + 5) (0x61 : Byte)
      ∧ (serialize hugeName).buf.length = 2 ^ 32 + 13
      ∧ littleEndian ((serialize hugeName).buf.take 4) = 5 := by
  have h := serialize_name_of_length_two_pow_32_add_5
    (List.replicate (2 ^ 32 + 5) (0x61 : Byte)) (List.length_replicate _ _)
  refine ⟨?_, h.1, h.2.1, h.2.2.1, h.2.2.2⟩
  intro p hp
  have hp2 : p = (List.replicate (2 ^ 32 + 5) (0x61 : Byte), []) := List.mem_singleton.mp hp
  rw [hp2]
  exact ⟨List.length_replicate _ _, rfl⟩

end ExecutionTraceTestCase

namespace ExecutionTraceCacheSimName

open ExecutionTraceTestCase

/-- The size `allocate` reports is the ten bytes of the record plus the length
of the name, whenever that sum fits an `unsigned`. -/
theorem allocate_retsize (id : Nat) (str : List Byte) (h : sizeofRecord + str.length < 2 ^ 32) :
    (allocate id str).retsize = sizeofRecord + str.length := by
  simp only [allocate]
  exact toU32_of_lt _ h

/-- C15 (the code at the failing input). For the 246-byte name `name246`,
`allocate` raises no error and reports the record size `256`, which the 8-bit
payload-size field of the record header cannot hold. -/
theorem allocate_reports_size_above_255 :
    name246.length = 246
      ∧ (allocate 7 name246).retsize = 256
      ∧ maxPayloadSize < (allocate 7 name246).retsize := by
  have hlen : name246.length = 246 := List.length_replicate _ _
  have hsize : (allocate 7 name246).retsize = 256 := by
    rw [allocate_retsize 7 name246 (by rw [hlen]; decide), hlen]
    rfl
  refine ⟨hlen, hsize, ?_⟩
  rw [hsize]
  decide

end ExecutionTraceCacheSimName

/-! ## Lemmas on the call registry -/

namespace FunctionMonitor

theorem Multimap.insert_perm {α : Type} (k : Nat) (v : α) (m : Multimap α) :
    List.Perm (Multimap.insert k v m) ((k, v) :: m) := by
  induction m with
  | nil => exact List.Perm.refl _
  | cons e rest ih =>
    simp only [Multimap.insert]
    split
    · exact (List.Perm.cons e ih).trans (List.Perm.swap _ _ _)
    · exact List.Perm.refl _

theorem findCallDescriptor_none (eip cr3 : Nat) (m : Multimap CallDescriptor) :
    findCallDescriptor eip cr3 m = none ↔ ∀ e ∈ m, ¬ (e.1 = eip ∧ e.2.cr3 = cr3) := by
  induction m with
  | nil => simp [findCallDescriptor]
  | cons e rest ih =>
    simp only [findCallDescriptor]
    by_cases h : e.1 = eip ∧ e.2.cr3 = cr3
    · simp only [if_pos h, List.mem_cons, forall_eq_or_imp]
      constructor
      · intro hc; cases hc
      · intro hc; exact absurd h hc.1
    · simp only [if_neg h, Option.map_eq_none', ih, List.mem_cons, forall_eq_or_imp]
      exact ⟨fun hr => ⟨h, hr⟩, fun hr => hr.2⟩

theorem findCallDescriptor_some (eip cr3 i : Nat) (m : Multimap CallDescriptor)
    (h : findCallDescriptor eip cr3 m = some i) :
    ∃ d, m[i]? = some (eip, d) ∧ d.cr3 = cr3 := by
  induction m generalizing i with
  | nil => simp [findCallDescriptor] at h
  | cons e rest ih =>
    simp only [findCallDescriptor] at h
    by_cases hc : e.1 = eip ∧ e.2.cr3 = cr3
    · simp only [if_pos hc, Option.some.injEq] at h
      subst h
      refine ⟨e.2, ?_, hc.2⟩
      simp only [List.getElem?_cons_zero, Option.some.injEq]
      exact Prod.ext hc.1 rfl
    · simp only [if_neg hc, Option.map_eq_some'] at h
      obtain ⟨j, hj, rfl⟩ := h
      obtain ⟨d, hd1, hd2⟩ := ih j hj
      exact ⟨d, by simpa using hd1, hd2⟩

/-- After the insertion of a descriptor for a pair that was absent, the search
of `getCallSignal` finds it, at the position of the insertion. -/
theorem findCallDescriptor_insert (eip cr3 : Nat) (signal : CallSignal)
    (m : Multimap CallDescriptor) (h : findCallDescriptor eip cr3 m = none) :
    findCallDescriptor eip cr3 (Multimap.insert eip { cr3 := cr3, signal := signal } m)
      = some (Multimap.upper_bound eip m) := by
  induction m with
  | nil => simp [Multimap.insert, findCallDescriptor, Multimap.upper_bound]
  | cons e rest ih =>
    simp only [findCallDescriptor] at h
    by_cases hc : e.1 = eip ∧ e.2.cr3 = cr3
    · simp [if_pos hc] at h
    · simp only [if_neg hc, Option.map_eq_none'] at h
      simp only [Multimap.insert, Multimap.upper_bound]
      by_cases hle : e.1 ≤ eip
      · simp only [if_pos hle, findCallDescriptor, if_neg hc, ih h, Option.map_some']
      · simp only [if_neg hle, findCallDescriptor, and_self, if_true]

theorem Multimap.getElem_insert_upper_bound {α : Type} (k : Nat) (v : α) (m : Multimap α) :
    (Multimap.insert k v m)[Multimap.upper_bound k m]? = some (k, v) := by
  induction m with
  | nil => rfl
  | cons e rest ih =>
    simp only [Multimap.insert, Multimap.upper_bound]
    by_cases hle : e.1 ≤ k
    · simp only [if_pos hle, List.getElem?_cons_succ, ih]
    · simp only [if_neg hle, List.getElem?_cons_zero]

theorem descriptorKeys_connect (m : Multimap CallDescriptor) (i : Nat) (slot : CallSlot) :
    descriptorKeys (connect m i slot) = descriptorKeys m := by
  simp only [descriptorKeys, connect]
  induction m generalizing i with
  | nil => cases i <;> rfl
  | cons e rest ih =>
    cases i with
    | zero => rfl
    | succ i => simp only [List.modify_succ_cons, List.map_cons, ih]

theorem ordered_iff_keys {α : Type} (m : Multimap α) :
    Multimap.ordered m ↔ (m.map (fun e => e.1)).Pairwise (fun a b => a ≤ b) := by
  simp only [Multimap.ordered, List.pairwise_map]

theorem ordered_connect (m : Multimap CallDescriptor) (i : Nat) (slot : CallSlot)
    (h : Multimap.ordered m) : Multimap.ordered (connect m i slot) := by
  rw [ordered_iff_keys] at h ⊢
  have hk : (connect m i slot).map (fun e => e.1) = m.map (fun e => e.1) := by
    have := congrArg (List.map Prod.fst) (descriptorKeys_connect m i slot)
    simpa only [descriptorKeys, List.map_map, Function.comp_def] using this
  rw [hk]
  exact h

theorem ordered_getCallSignal (m : Multimap CallDescriptor) (eip cr3 : Nat)
    (h : Multimap.ordered m) : Multimap.ordered (getCallSignal m eip cr3).1 := by
  unfold getCallSignal
  split
  · exact h
  · exact Multimap.ordered_insert _ _ _ h

theorem nodup_getCallSignal (m : Multimap CallDescriptor) (eip cr3 : Nat)
    (h : (descriptorKeys m).Nodup) : (descriptorKeys (getCallSignal m eip cr3).1).Nodup := by
  unfold getCallSignal
  split
  · exact h
  · rename_i hnone
    have hperm := (Multimap.insert_perm eip ({ cr3 := cr3, signal := [] } : CallDescriptor) m).map
      (fun e => (e.1, e.2.cr3))
    simp only [descriptorKeys]
    rw [hperm.nodup_iff, List.map_cons, List.nodup_cons]
    refine ⟨?_, h⟩
    simp only [List.mem_map, not_exists, not_and]
    intro e he heq
    simp only [Prod.mk.injEq] at heq
    exact (findCallDescriptor_none eip cr3 m).mp hnone e he heq

/-- The invariants of the call registry: its entries are ordered by address and
no two descriptors have the same (address, address space) pair. -/
theorem Reachable.invariant (m : Multimap CallDescriptor) (h : Reachable m) :
    Multimap.ordered m ∧ (descriptorKeys m).Nodup := by
  induction h with
  | empty => exact ⟨List.Pairwise.nil, List.nodup_nil⟩
  | get m eip cr3 _ ih => exact ⟨ordered_getCallSignal m eip cr3 ih.1, nodup_getCallSignal m eip cr3 ih.2⟩
  | connected m i slot _ ih =>
    exact ⟨ordered_connect m i slot ih.1, by rw [descriptorKeys_connect]; exact ih.2⟩

end FunctionMonitor

/-! ## The claims on the call registry -/

namespace FunctionMonitor

theorem Multimap.equal_range_insert {α : Type} (k : Nat) (v : α) (m : Multimap α)
    (h : Multimap.ordered m) :
    Multimap.equal_range k (Multimap.insert k v m) = Multimap.equal_range k m ++ [v]
      ∧ ∀ k1, k1 ≠ k →
          Multimap.equal_range k1 (Multimap.insert k v m) = Multimap.equal_range k1 m := by
  constructor
  · simp only [Multimap.equal_range]
    rw [Multimap.filter_insert_same k v m _ (by intro e he; simpa using he) h]
    simp
  · intro k1 hk
    simp only [Multimap.equal_range]
    rw [Multimap.filter_insert_other k v m _ (by simpa using fun h => hk h.symm)]

/-- C18. In every call registry reachable from the empty one, no two
descriptors have the same (address, address space) pair.  A call of
`getCallSignal(eip, cr3)` returns the position of a descriptor of that pair; a
second call with the same arguments returns the same position and the same
registry; if the pair was present the first call already leaves the registry
as it is, and if it was absent the call adds exactly one descriptor, with no
slot, after the descriptors already present for that address and without
touching those of other addresses. -/
theorem getCallSignal_one_descriptor_per_pair (m : Multimap CallDescriptor) (eip cr3 : Nat)
    (h : Reachable m) :
    (descriptorKeys m).Nodup
      ∧ (descriptorKeys (getCallSignal m eip cr3).1).Nodup
      ∧ getCallSignal (getCallSignal m eip cr3).1 eip cr3 = getCallSignal m eip cr3
      ∧ (∃ d, (getCallSignal m eip cr3).1[(getCallSignal m eip cr3).2]? = some (eip, d)
          ∧ d.cr3 = cr3)
      ∧ ((eip, cr3) ∈ descriptorKeys m → (getCallSignal m eip cr3).1 = m)
      ∧ ((eip, cr3) ∉ descriptorKeys m →
          Multimap.equal_range eip (getCallSignal m eip cr3).1
              = Multimap.equal_range eip m ++ [{ cr3 := cr3, signal := [] }]
            ∧ (∀ k, k ≠ eip → Multimap.equal_range k (getCallSignal m eip cr3).1
                = Multimap.equal_range k m)
            ∧ (getCallSignal m eip cr3).1.length = m.length + 1) := by
  obtain ⟨hord, hnodup⟩ := Reachable.invariant m h
  refine ⟨hnodup, nodup_getCallSignal m eip cr3 hnodup, ?_⟩
  cases hf : findCallDescriptor eip cr3 m with
  | some i =>
    have hg : getCallSignal m eip cr3 = (m, i) := by simp only [getCallSignal, hf]
    obtain ⟨d, hd1, hd2⟩ := findCallDescriptor_some eip cr3 i m hf
    rw [hg]
    refine ⟨hg, ⟨d, hd1, hd2⟩, fun _ => rfl, ?_⟩
    intro habs
    exfalso
    apply habs
    simp only [descriptorKeys, List.mem_map]
    exact ⟨(eip, d), List.getElem?_mem hd1, by rw [hd2]⟩
  | none =>
    have hg : getCallSignal m eip cr3
        = (Multimap.insert eip { cr3 := cr3, signal := [] } m, Multimap.upper_bound eip m) := by
      simp only [getCallSignal, hf]
    rw [hg]
    refine ⟨?_, ⟨_, Multimap.getElem_insert_upper_bound eip _ m, rfl⟩, ?_, ?_⟩
    · simp only [getCallSignal, findCallDescriptor_insert eip cr3 [] m hf]
    · intro hmem
      exfalso
      simp only [descriptorKeys, List.mem_map, Prod.mk.injEq] at hmem
      obtain ⟨e, he, h1, h2⟩ := hmem
      exact (findCallDescriptor_none eip cr3 m).mp hf e he ⟨h1, h2⟩
    · intro _
      exact ⟨(Multimap.equal_range_insert eip _ m hord).1,
        (Multimap.equal_range_insert eip _ m hord).2, Multimap.length_insert _ _ _⟩

/-- Witness of C18 on the registry of the scenario of the spec, for a pair
that is present. -/
theorem getCallSignal_one_descriptor_per_pair_witness :
    Reachable monitorAB.m_callDescriptors
      ∧ getCallSignal (getCallSignal monitorAB.m_callDescriptors 0x1000 1).1 0x1000 1
          = getCallSignal monitorAB.m_callDescriptors 0x1000 1 :=
  have hr : Reachable monitorAB.m_callDescriptors :=
    Reachable.connected _ _ slotB (Reachable.get _ 0x1000 1
      (Reachable.connected _ _ slotA (Reachable.get _ 0 0 Reachable.empty)))
  ⟨hr, (getCallSignal_one_descriptor_per_pair monitorAB.m_callDescriptors 0x1000 1 hr).2.2.1⟩

end FunctionMonitor

/-! ## Lemmas on sequences of registrations -/

namespace FunctionMonitor

theorem equal_range_cons {α : Type} (k : Nat) (e : Nat × α) (m : Multimap α) :
    Multimap.equal_range k (e :: m)
      = if e.1 = k then e.2 :: Multimap.equal_range k m else Multimap.equal_range k m := by
  simp only [Multimap.equal_range, List.filter_cons]
  by_cases h : e.1 = k <;> simp [h]

/-- Connecting a slot to the descriptor found by `getCallSignal`, seen from the
descriptors of each address. -/
theorem equal_range_connect_found (eip cr3 i k : Nat) (slot : CallSlot)
    (m : Multimap CallDescriptor) (h : findCallDescriptor eip cr3 m = some i) :
    Multimap.equal_range k (connect m i slot)
      = if k = eip then registerInto cr3 slot (Multimap.equal_range k m)
        else Multimap.equal_range k m := by
  induction m generalizing i with
  | nil => simp [findCallDescriptor] at h
  | cons e rest ih =>
    simp only [findCallDescriptor] at h
    by_cases hc : e.1 = eip ∧ e.2.cr3 = cr3
    · simp only [if_pos hc, Option.some.injEq] at h
      subst h
      simp only [connect, List.modify_zero_cons, equal_range_cons]
      by_cases hk : k = eip
      · have hek : e.1 = k := by rw [hk]; exact hc.1
        simp only [if_pos hek, if_pos hk, registerInto, if_pos hc.2]
      · have hek : ¬ e.1 = k := by rw [hc.1]; exact fun h => hk h.symm
        simp only [if_neg hek, if_neg hk]
    · simp only [if_neg hc, Option.map_eq_some'] at h
      obtain ⟨j, hj, rfl⟩ := h
      have hstep : connect (e :: rest) (j + 1) slot = e :: connect rest j slot := by
        simp only [connect, List.modify_succ_cons]
      rw [hstep, equal_range_cons, equal_range_cons, ih j hj]
      by_cases hk : k = eip
      · by_cases hek : e.1 = k
        · have hne : ¬ e.2.cr3 = cr3 := fun hcr => hc ⟨by rw [hek, hk], hcr⟩
          simp only [if_pos hk, if_pos hek, registerInto, if_neg hne]
        · simp only [if_pos hk, if_neg hek]
      · by_cases hek : e.1 = k
        · simp only [if_neg hk, if_pos hek]
        · simp only [if_neg hk, if_neg hek]

/-- Connecting a slot to the descriptor just inserted by `getCallSignal` gives
the registry in which the descriptor was inserted with that slot. -/
theorem connect_insert_upper_bound (eip cr3 : Nat) (slot : CallSlot)
    (m : Multimap CallDescriptor) :
    connect (Multimap.insert eip { cr3 := cr3, signal := [] } m) (Multimap.upper_bound eip m) slot
      = Multimap.insert eip { cr3 := cr3, signal := [slot] } m := by
  induction m with
  | nil => rfl
  | cons e rest ih =>
    simp only [Multimap.insert, Multimap.upper_bound]
    by_cases hle : e.1 ≤ eip
    · simp only [if_pos hle]
      have hstep : ∀ (l : Multimap CallDescriptor) (j : Nat),
          connect (e :: l) (j + 1) slot = e :: connect l j slot := by
        intro l j
        simp only [connect, List.modify_succ_cons]
      rw [hstep, ih]
    · simp only [if_neg hle]
      rfl

theorem registerInto_absent (cr3 : Nat) (slot : CallSlot) (ds : List CallDescriptor)
    (h : ∀ d ∈ ds, d.cr3 ≠ cr3) :
    registerInto cr3 slot ds = ds ++ [{ cr3 := cr3, signal := [slot] }] := by
  induction ds with
  | nil => rfl
  | cons d ds ih =>
    have hd : ¬ d.cr3 = cr3 := h d (List.mem_cons_self _ _)
    simp only [registerInto, if_neg hd, List.cons_append,
      ih (fun x hx => h x (List.mem_cons_of_mem _ hx))]

/-- One registration, seen from the descriptors of each address: at the
address of the registration the slot goes to the descriptor of its address
space, which is created at the end if it is not there; the other addresses
keep their descriptors. -/
theorem equal_range_registerCall (m : Multimap CallDescriptor) (eip cr3 k : Nat)
    (slot : CallSlot) (hord : Multimap.ordered m) :
    Multimap.equal_range k (registerCall m eip cr3 slot)
      = if k = eip then registerInto cr3 slot (Multimap.equal_range k m)
        else Multimap.equal_range k m := by
  cases hf : findCallDescriptor eip cr3 m with
  | some i =>
    have hg : registerCall m eip cr3 slot = connect m i slot := by
      simp only [registerCall, getCallSignal, hf]
    rw [hg]
    exact equal_range_connect_found eip cr3 i k slot m hf
  | none =>
    have hg : registerCall m eip cr3 slot
        = Multimap.insert eip { cr3 := cr3, signal := [slot] } m := by
      simp only [registerCall, getCallSignal, hf]
      exact connect_insert_upper_bound eip cr3 slot m
    rw [hg]
    by_cases hk : k = eip
    · subst hk
      rw [if_pos rfl, (Multimap.equal_range_insert k _ m hord).1, registerInto_absent]
      intro d hd hcr
      simp only [Multimap.equal_range, List.mem_map, List.mem_filter, decide_eq_true_eq] at hd
      obtain ⟨e, ⟨he1, he2⟩, rfl⟩ := hd
      exact (findCallDescriptor_none k cr3 m).mp hf e he1 ⟨he2, hcr⟩
    · rw [if_neg hk]
      exact (Multimap.equal_range_insert eip _ m hord).2 k hk

theorem reachable_registerCall (m : Multimap CallDescriptor) (eip cr3 : Nat) (slot : CallSlot)
    (h : Reachable m) : Reachable (registerCall m eip cr3 slot) :=
  Reachable.connected _ _ slot (Reachable.get m eip cr3 h)

theorem reachable_foldl_registerCall (regs : List Registration) (m : Multimap CallDescriptor)
    (h : Reachable m) :
    Reachable (regs.foldl (fun m r => registerCall m r.eip r.cr3 r.slot) m) := by
  induction regs generalizing m with
  | nil => exact h
  | cons r regs ih => exact ih _ (reachable_registerCall m r.eip r.cr3 r.slot h)

theorem reachable_registerAll (regs : List Registration) : Reachable (registerAll regs) :=
  reachable_foldl_registerCall regs [] Reachable.empty

theorem registerAll_append_singleton (regs : List Registration) (r : Registration) :
    registerAll (regs ++ [r]) = registerCall (registerAll regs) r.eip r.cr3 r.slot := by
  simp only [registerAll, List.foldl_append, List.foldl_cons, List.foldl_nil]

end FunctionMonitor

namespace FunctionMonitor

theorem mem_firstOccurrences (l : List Nat) (x : Nat) : x ∈ firstOccurrences l ↔ x ∈ l := by
  induction l with
  | nil => simp [firstOccurrences]
  | cons c cs ih =>
    simp only [firstOccurrences, List.mem_cons, List.mem_filter, ih, decide_eq_true_eq]
    by_cases h : x = c
    · simp [h]
    · simp [h]

theorem nodup_firstOccurrences (l : List Nat) : (firstOccurrences l).Nodup := by
  induction l with
  | nil => exact List.nodup_nil
  | cons c cs ih =>
    simp only [firstOccurrences, List.nodup_cons, List.mem_filter, decide_eq_true_eq]
    exact ⟨fun h => h.2 rfl, ih.filter _⟩

theorem firstOccurrences_filter (l : List Nat) (p : Nat → Bool) :
    (firstOccurrences l).filter p = firstOccurrences (l.filter p) := by
  induction l with
  | nil => rfl
  | cons c cs ih =>
    have h2 : firstOccurrences (c :: cs) = c :: (firstOccurrences cs).filter (fun x => x ≠ c) :=
      rfl
    by_cases hp : p c = true
    · have h1 : firstOccurrences (c :: cs.filter p)
          = c :: (firstOccurrences (cs.filter p)).filter (fun x => x ≠ c) := rfl
      rw [List.filter_cons_of_pos hp, h1, h2, List.filter_cons_of_pos hp, ← ih,
        List.filter_filter, List.filter_filter]
      congr 1
      apply List.filter_congr
      intro x _
      exact Bool.and_comm _ _
    · rw [List.filter_cons_of_neg hp, h2, List.filter_cons_of_neg hp, ← ih, List.filter_filter]
      apply List.filter_congr
      intro x _
      by_cases hxc : x = c
      · subst hxc
        simp [hp]
      · simp [hxc]

theorem firstOccurrences_append_singleton (l : List Nat) (c : Nat) :
    firstOccurrences (l ++ [c])
      = if c ∈ l then firstOccurrences l else firstOccurrences l ++ [c] := by
  induction l with
  | nil => simp [firstOccurrences]
  | cons a as ih =>
    have h1 : firstOccurrences (a :: (as ++ [c]))
        = a :: (firstOccurrences (as ++ [c])).filter (fun x => x ≠ a) := rfl
    have h2 : firstOccurrences (a :: as) = a :: (firstOccurrences as).filter (fun x => x ≠ a) :=
      rfl
    rw [List.cons_append, h1, h2, ih]
    by_cases hmem : c ∈ as
    · rw [if_pos hmem, if_pos (List.mem_cons_of_mem _ hmem)]
    · rw [if_neg hmem]
      by_cases hca : c = a
      · subst hca
        rw [if_pos (List.mem_cons_self _ _), List.filter_append]
        simp
      · have hnot : ¬ c ∈ a :: as := by
          intro h
          rcases List.mem_cons.mp h with h | h
          · exact hca h
          · exact hmem h
        rw [if_neg hnot, List.filter_append]
        simp [hca]

theorem spacesAt_append_singleton (k : Nat) (regs : List Registration) (r : Registration) :
    spacesAt k (regs ++ [r])
      = if r.eip = k then
          (if r.cr3 ∈ spacesAt k regs then spacesAt k regs else spacesAt k regs ++ [r.cr3])
        else spacesAt k regs := by
  by_cases hk : r.eip = k
  · have hf : (regs ++ [r]).filter (fun r => r.eip = k) = regs.filter (fun r => r.eip = k) ++ [r] := by
      rw [List.filter_append, List.filter_cons_of_pos (by simpa using hk)]
      rfl
    simp only [spacesAt, hf, List.map_append, List.map_cons, List.map_nil,
      firstOccurrences_append_singleton, if_pos hk, mem_firstOccurrences]
  · have hf : (regs ++ [r]).filter (fun r => r.eip = k) = regs.filter (fun r => r.eip = k) := by
      rw [List.filter_append, List.filter_cons_of_neg (by simpa using hk)]
      simp
    simp only [spacesAt, hf, if_neg hk]

theorem slotsAt_append_singleton (k c : Nat) (regs : List Registration) (r : Registration) :
    slotsAt k c (regs ++ [r])
      = if r.eip = k ∧ r.cr3 = c then slotsAt k c regs ++ [r.slot] else slotsAt k c regs := by
  by_cases h : r.eip = k ∧ r.cr3 = c
  · simp [slotsAt, List.filter_append, h, List.filter_cons]
  · simp [slotsAt, List.filter_append, h, List.filter_cons]

theorem mem_spacesAt (k c : Nat) (regs : List Registration) :
    c ∈ spacesAt k regs ↔ ∃ r ∈ regs, r.eip = k ∧ r.cr3 = c := by
  simp only [spacesAt, mem_firstOccurrences, List.mem_map, List.mem_filter, decide_eq_true_eq]
  constructor
  · rintro ⟨r, ⟨h1, h2⟩, h3⟩
    exact ⟨r, h1, h2, h3⟩
  · rintro ⟨r, h1, h2, h3⟩
    exact ⟨r, ⟨h1, h2⟩, h3⟩

theorem slotsAt_eq_nil (k c : Nat) (regs : List Registration) (h : c ∉ spacesAt k regs) :
    slotsAt k c regs = [] := by
  simp only [slotsAt, List.map_eq_nil_iff, List.filter_eq_nil_iff, decide_eq_true_eq]
  intro r hr hc
  exact h ((mem_spacesAt k c regs).mpr ⟨r, hr, hc⟩)

/-- Registering into a list of descriptors with distinct address spaces, given
by their address spaces `L` and a signal for each. -/
theorem registerInto_map (c : Nat) (slot : CallSlot) (L : List Nat) (f : Nat → CallSignal)
    (hnodup : L.Nodup) :
    registerInto c slot (L.map (fun s => ({ cr3 := s, signal := f s } : CallDescriptor)))
      = if c ∈ L then
          L.map (fun s => ({ cr3 := s, signal := if s = c then f s ++ [slot] else f s }
            : CallDescriptor))
        else L.map (fun s => ({ cr3 := s, signal := f s } : CallDescriptor))
          ++ [{ cr3 := c, signal := [slot] }] := by
  induction L with
  | nil => simp [registerInto]
  | cons a as ih =>
    simp only [List.nodup_cons] at hnodup
    simp only [List.map_cons, registerInto, List.mem_cons]
    by_cases hac : a = c
    · subst hac
      simp only [if_true, true_or]
      congr 1
      apply List.map_congr_left
      intro s hs
      have hne : s ≠ a := fun h => hnodup.1 (h ▸ hs)
      simp only [if_neg hne]
    · have hca : ¬ c = a := fun h => hac h.symm
      simp only [if_neg hac, ih hnodup.2, hca, false_or]
      by_cases hmem : c ∈ as
      · simp only [if_pos hmem]
      · simp only [if_neg hmem, List.cons_append]

/-- The descriptors of address `k` after a sequence of registrations on the
empty registry: one per address space used at `k`, in order of first use, each
holding the slots registered under it in registration order. -/
theorem equal_range_registerAll (k : Nat) (regs : List Registration) :
    Multimap.equal_range k (registerAll regs)
      = (spacesAt k regs).map
          (fun s => ({ cr3 := s, signal := slotsAt k s regs } : CallDescriptor)) := by
  induction regs using List.reverseRecOn with
  | nil => rfl
  | append_singleton regs r ih =>
    have hord := (Reachable.invariant _ (reachable_registerAll regs)).1
    rw [registerAll_append_singleton, equal_range_registerCall _ _ _ _ _ hord, ih,
      spacesAt_append_singleton]
    by_cases hk : k = r.eip
    · have hk2 : r.eip = k := hk.symm
      rw [if_pos hk, if_pos hk2,
        registerInto_map r.cr3 r.slot (spacesAt k regs) (fun s => slotsAt k s regs)
          (nodup_firstOccurrences _)]
      by_cases hmem : r.cr3 ∈ spacesAt k regs
      · rw [if_pos hmem, if_pos hmem]
        apply List.map_congr_left
        intro s _
        rw [slotsAt_append_singleton]
        by_cases hs : s = r.cr3
        · have : r.eip = k ∧ r.cr3 = s := ⟨hk2, hs.symm⟩
          simp only [if_pos hs, if_pos this]
        · have : ¬ (r.eip = k ∧ r.cr3 = s) := fun h => hs h.2.symm
          simp only [if_neg hs, if_neg this]
      · rw [if_neg hmem, if_neg hmem, List.map_append, List.map_cons, List.map_nil]
        congr 1
        · apply List.map_congr_left
          intro s hs
          rw [slotsAt_append_singleton]
          have : ¬ (r.eip = k ∧ r.cr3 = s) := fun h => hmem (h.2 ▸ hs)
          simp only [if_neg this]
        · rw [slotsAt_append_singleton, if_pos ⟨hk2, rfl⟩, slotsAt_eq_nil k r.cr3 regs hmem]
          rfl
    · have hk2 : ¬ r.eip = k := fun h => hk h.symm
      rw [if_neg hk, if_neg hk2]
      apply List.map_congr_left
      intro s _
      rw [slotsAt_append_singleton]
      have : ¬ (r.eip = k ∧ r.cr3 = s) := fun h => hk2 h.1
      simp only [if_neg this]

end FunctionMonitor

namespace FunctionMonitor

theorem firedSlots_registerAll (regs : List Registration) (rets : Multimap ReturnDescriptor)
    (state : S2EExecutionState) :
    firedSlots { m_callDescriptors := registerAll regs, m_returnDescriptors := rets } state
      = groupOrder 0 state.cr3 regs ++ groupOrder state.eip state.cr3 regs := by
  simp only [firedSlots, emittedDescriptors, equal_range_registerAll, List.filter_append,
    List.flatMap_append, groupOrder, List.filter_map, List.flatMap_map, Function.comp_def]

theorem spacesAt_filter (k c : Nat) (regs : List Registration) :
    (spacesAt k regs).filter (fun s => s = 0 ∨ s = c)
      = firstOccurrences ((firedRegistrations k c regs).map (fun r => r.cr3)) := by
  simp only [spacesAt, firstOccurrences_filter, List.filter_map, List.filter_filter,
    firedRegistrations, Function.comp_def]
  congr 2
  apply List.filter_congr
  intro r _
  simp only [Bool.decide_and, Bool.and_comm]

theorem slotsAt_eq_filter (k c s : Nat) (regs : List Registration) (hs : s = 0 ∨ s = c) :
    slotsAt k s regs
      = ((firedRegistrations k c regs).filter (fun r => r.cr3 = s)).map (fun r => r.slot) := by
  simp only [slotsAt, firedRegistrations, List.filter_filter]
  congr 1
  apply List.filter_congr
  intro r _
  by_cases h1 : r.eip = k <;> by_cases h2 : r.cr3 = s
  · have h3 : r.cr3 = 0 ∨ r.cr3 = c := h2 ▸ hs
    simp [h1, h2, h3]
    exact h2 ▸ hs
  · simp [h1, h2]
  · simp [h1, h2]
  · simp [h1, h2]

/-- The slots of a group in key-by-key order, in terms of the registrations
the call fires: for each address space among them, in order of first
registration, the fired registrations under it. -/
theorem groupOrder_eq (k c : Nat) (regs : List Registration) :
    groupOrder k c regs
      = (firstOccurrences ((firedRegistrations k c regs).map (fun r => r.cr3))).flatMap
          (fun s => ((firedRegistrations k c regs).filter (fun r => r.cr3 = s)).map
            (fun r => r.slot)) := by
  simp only [groupOrder, spacesAt_filter]
  apply List.flatMap_congr
  intro s hs
  apply slotsAt_eq_filter
  rw [mem_firstOccurrences] at hs
  simp only [List.mem_map, firedRegistrations, List.mem_filter, decide_eq_true_eq] at hs
  obtain ⟨r, ⟨_, _, h⟩, rfl⟩ := hs
  exact h

theorem firstOccurrences_const (l : List Nat) (a : Nat) (h : ∀ x ∈ l, x = a) (hne : l ≠ []) :
    firstOccurrences l = [a] := by
  cases l with
  | nil => exact absurd rfl hne
  | cons c cs =>
    have hc : c = a := h c (List.mem_cons_self _ _)
    subst hc
    simp only [firstOccurrences, List.cons.injEq, true_and, List.filter_eq_nil_iff,
      mem_firstOccurrences]
    intro x hx
    simp [h x (List.mem_cons_of_mem _ hx)]

/-- Grouping by address space in order of first occurrence changes nothing in
a list of registrations that all have the same address space. -/
theorem grouped_const (F : List Registration) (a : Nat) (h : ∀ r ∈ F, r.cr3 = a) :
    (firstOccurrences (F.map (fun r => r.cr3))).flatMap
        (fun s => (F.filter (fun r => r.cr3 = s)).map (fun r => r.slot))
      = F.map (fun r => r.slot) := by
  by_cases hne : F = []
  · subst hne
    rfl
  · have hfo : firstOccurrences (F.map (fun r => r.cr3)) = [a] := by
      apply firstOccurrences_const
      · intro x hx
        simp only [List.mem_map] at hx
        obtain ⟨r, hr, rfl⟩ := hx
        exact h r hr
      · simpa using hne
    have hfil : F.filter (fun r => r.cr3 = a) = F := by
      rw [List.filter_eq_self]
      intro r hr
      simpa using h r hr
    simp only [hfo, List.flatMap_cons, List.flatMap_nil, List.append_nil, hfil]

/-- Grouping by address space in order of first occurrence changes nothing in
a list made of a block of one address space followed by a block of another. -/
theorem grouped_blocks (X Y : List Registration) (a b : Nat)
    (hX : ∀ r ∈ X, r.cr3 = a) (hY : ∀ r ∈ Y, r.cr3 = b) :
    (firstOccurrences ((X ++ Y).map (fun r => r.cr3))).flatMap
        (fun s => ((X ++ Y).filter (fun r => r.cr3 = s)).map (fun r => r.slot))
      = (X ++ Y).map (fun r => r.slot) := by
  by_cases hab : a = b
  · subst hab
    apply grouped_const (X ++ Y) a
    intro r hr
    rcases List.mem_append.mp hr with h | h
    · exact hX r h
    · exact hY r h
  by_cases hXe : X = []
  · subst hXe
    exact grouped_const _ b hY
  by_cases hYe : Y = []
  · subst hYe
    rw [List.append_nil]
    exact grouped_const _ a hX
  obtain ⟨x, xs, rfl⟩ := List.exists_cons_of_ne_nil hXe
  have hxa : x.cr3 = a := hX x (List.mem_cons_self _ _)
  have hfo : firstOccurrences ((x :: xs ++ Y).map (fun r => r.cr3)) = [a, b] := by
    have h1 : firstOccurrences ((x :: xs ++ Y).map (fun r => r.cr3))
        = x.cr3 :: (firstOccurrences ((xs ++ Y).map (fun r => r.cr3))).filter
            (fun s => s ≠ x.cr3) := rfl
    rw [h1, hxa, firstOccurrences_filter, List.filter_map, List.filter_append]
    have hxs : xs.filter ((fun s => decide (s ≠ a)) ∘ fun r => r.cr3) = [] := by
      rw [List.filter_eq_nil_iff]
      intro r hr
      simp [hX r (List.mem_cons_of_mem _ hr)]
    have hys : Y.filter ((fun s => decide (s ≠ a)) ∘ fun r => r.cr3) = Y := by
      rw [List.filter_eq_self]
      intro r hr
      simp only [Function.comp_apply, hY r hr, decide_eq_true_eq]
      exact fun h => hab h.symm
    rw [hxs, hys, List.nil_append, firstOccurrences_const (Y.map (fun r => r.cr3)) b]
    · intro s hs
      simp only [List.mem_map] at hs
      obtain ⟨r, hr, rfl⟩ := hs
      exact hY r hr
    · simpa using hYe
  have hfa : (x :: xs ++ Y).filter (fun r => r.cr3 = a) = x :: xs := by
    rw [List.filter_append]
    have h1 : (x :: xs).filter (fun r => r.cr3 = a) = x :: xs := by
      rw [List.filter_eq_self]
      intro r hr
      simpa using hX r hr
    have h2 : Y.filter (fun r => r.cr3 = a) = [] := by
      rw [List.filter_eq_nil_iff]
      intro r hr
      simp only [hY r hr, decide_eq_true_eq]
      exact fun h => hab h.symm
    rw [h1, h2, List.append_nil]
  have hfb : (x :: xs ++ Y).filter (fun r => r.cr3 = b) = Y := by
    rw [List.filter_append]
    have h1 : (x :: xs).filter (fun r => r.cr3 = b) = [] := by
      rw [List.filter_eq_nil_iff]
      intro r hr
      simp only [hX r hr, decide_eq_true_eq]
      exact hab
    have h2 : Y.filter (fun r => r.cr3 = b) = Y := by
      rw [List.filter_eq_self]
      intro r hr
      simpa using hY r hr
    rw [h1, h2, List.nil_append]
  rw [hfo]
  simp only [List.flatMap_cons, List.flatMap_nil, List.append_nil, hfa, hfb, List.map_append]

end FunctionMonitor

namespace FunctionMonitor

/-- C11 (counterexample). With the catch-all registrations of `interleavedRegs`
(`slotA` under `(0, 0)`, `slotB` under `(0, 1)`, `slotC` under `(0, 0)`), the
call of `callEvent` (address space `1`) fires all three, registered in the
order `1, 2, 4`, in the order `1, 4, 2`: the two slots of the descriptor
`(0, 0)` first, then the slot of the descriptor `(0, 1)`. -/
theorem slotCall_interleaved_registrations_out_of_order :
    (firedRegistrations 0 callEvent.cr3 interleavedRegs).map (fun r => r.slot.id) = [1, 2, 4]
      ∧ (slotCall { m_callDescriptors := registerAll interleavedRegs, m_returnDescriptors := [] }
          callEvent).2
          = [Notification.call 1, Notification.call 4, Notification.call 2] := by
  decide

/-- C11 (as amended). For every sequence of registrations on the empty
registry and every call event with a concrete stack pointer, the slots fired
in the catch-all group and then those fired in the specific-address group
come key by key (`groupOrder`): for each of the address spaces `0` and `cr3`
used at the address of the group, in order of first registration, the slots
registered under it in registration order.  Whenever the registrations fired
in a group are a block under one address space followed by a block under
another (they were not interleaved), that is their registration order. -/
theorem slotCall_fires_key_by_key (regs : List Registration)
    (rets : Multimap ReturnDescriptor) (state : S2EExecutionState) (esp : Nat)
    (hesp : state.esp = some esp) :
    (slotCall { m_callDescriptors := registerAll regs, m_returnDescriptors := rets } state).2
        = (groupOrder 0 state.cr3 regs ++ groupOrder state.eip state.cr3 regs).map
            (fun slot => Notification.call slot.id)
      ∧ ∀ k, (∃ X Y a b, firedRegistrations k state.cr3 regs = X ++ Y
              ∧ (∀ r ∈ X, r.cr3 = a) ∧ (∀ r ∈ Y, r.cr3 = b)) →
          groupOrder k state.cr3 regs
            = (firedRegistrations k state.cr3 regs).map (fun r => r.slot) := by
  constructor
  · rw [slotCall_eq _ state esp hesp, firedSlots_registerAll]
  · rintro k ⟨X, Y, a, b, hF, hX, hY⟩
    rw [groupOrder_eq, hF]
    exact grouped_blocks X Y a b hX hY

/-- Witness of the amended C11 on the scenario of the spec, whose two
registrations are under different addresses. -/
theorem slotCall_fires_key_by_key_witness :
    callEvent.esp = some 0x7000
      ∧ (slotCall { m_callDescriptors := registerAll regsAB, m_returnDescriptors := [] }
          callEvent).2
          = (groupOrder 0 callEvent.cr3 regsAB ++ groupOrder callEvent.eip callEvent.cr3 regsAB).map
              (fun slot => Notification.call slot.id) :=
  ⟨rfl, (slotCall_fires_key_by_key regsAB [] callEvent 0x7000 rfl).1⟩

end FunctionMonitor

/-! ## A call, later events, and the first matching return -/

namespace FunctionMonitor

theorem newReturnDescriptors_congr (fm1 fm2 : FunctionMonitor) (state : S2EExecutionState)
    (h : fm1.m_callDescriptors = fm2.m_callDescriptors) :
    newReturnDescriptors fm1 state = newReturnDescriptors fm2 state := by
  simp only [newReturnDescriptors, emittedDescriptors, h]

theorem laterPending_congr (fm1 fm2 : FunctionMonitor) (sid cr3 esp : Nat) (evs : List Event)
    (h : fm1.m_callDescriptors = fm2.m_callDescriptors) :
    laterPending fm1 sid cr3 esp evs = laterPending fm2 sid cr3 esp evs := by
  induction evs with
  | nil => rfl
  | cons ev evs ih =>
    cases ev with
    | call st => simp only [laterPending, ih, newReturnDescriptors_congr fm1 fm2 st h]
    | ret st => simp only [laterPending, ih]

/-- The entries matching (state `sid`, `cr3`, key `esp`) after a call event: the
former ones, followed by the entries the call makes when it has that state,
`cr3` and stack pointer. -/
theorem slotCall_matching (fm : FunctionMonitor) (st : S2EExecutionState)
    (sid cr3 esp : Nat) (h : Multimap.ordered fm.m_returnDescriptors) :
    (slotCall fm st).1.m_returnDescriptors.filter (retMatches sid cr3 esp)
      = fm.m_returnDescriptors.filter (retMatches sid cr3 esp)
        ++ (if st.esp = some esp ∧ st.id = sid ∧ st.cr3 = cr3
            then newReturnDescriptors fm st else []).map (fun d => (esp, d)) := by
  cases hesp : st.esp with
  | none => simp [slotCall, hesp]
  | some esp1 =>
    rw [slotCall_eq fm st esp1 hesp]
    by_cases hk : esp1 = esp
    · subst hk
      have hq : ∀ e : Nat × ReturnDescriptor, retMatches sid cr3 esp1 e = true → e.1 = esp1 := by
        intro e he
        simp only [retMatches, decide_eq_true_eq] at he
        exact he.1
      show (Multimap.insertAll esp1 (newReturnDescriptors fm st) fm.m_returnDescriptors).filter
        (retMatches sid cr3 esp1) = _
      rw [Multimap.filter_insertAll_same esp1 _ _ _ hq h]
      congr 1
      by_cases hc : st.id = sid ∧ st.cr3 = cr3
      · have hc2 : (some esp1 = some esp1 ∧ st.id = sid ∧ st.cr3 = cr3) := ⟨rfl, hc⟩
        rw [if_pos hc2, List.filter_eq_self]
        intro e he
        simp only [List.mem_map] at he
        obtain ⟨d, hd, rfl⟩ := he
        obtain ⟨h1, h2, _⟩ := newReturnDescriptors_spec fm st d hd
        simp [retMatches, h1, h2, hc.1, hc.2]
      · have hc2 : ¬ (some esp1 = some esp1 ∧ st.id = sid ∧ st.cr3 = cr3) := fun hh => hc hh.2
        rw [if_neg hc2, List.map_nil, List.filter_eq_nil_iff]
        intro e he
        simp only [List.mem_map] at he
        obtain ⟨d, hd, rfl⟩ := he
        obtain ⟨h1, h2, _⟩ := newReturnDescriptors_spec fm st d hd
        simp only [retMatches, h1, h2, true_and, decide_eq_true_eq]
        exact hc
    · have hc2 : ¬ (some esp1 = some esp ∧ st.id = sid ∧ st.cr3 = cr3) :=
        fun hh => hk (Option.some.inj hh.1)
      rw [if_neg hc2, List.map_nil, List.append_nil]
      show (Multimap.insertAll esp1 (newReturnDescriptors fm st) fm.m_returnDescriptors).filter
        (retMatches sid cr3 esp) = _
      apply Multimap.filter_insertAll_other
      intro v _
      simp only [retMatches, decide_eq_false_iff_not]
      exact fun hcc => hk hcc.1

/-- A sequence of events none of which is a return for (state `sid`, `cr3`,
key `esp`) is handled to the end; afterwards the entries matching
(`sid`, `cr3`, `esp`) are the former ones followed by those its call events
made for that state, `cr3` and stack pointer. -/
theorem run_matching (evs : List Event) (fm : FunctionMonitor) (sid cr3 esp : Nat)
    (h : Multimap.ordered fm.m_returnDescriptors)
    (hevs : ∀ ev ∈ evs, ∀ st, ev = Event.ret st →
      ¬ (st.esp = some esp ∧ st.id = sid ∧ st.cr3 = cr3)) :
    ∃ fm1 log, run fm evs = some (fm1, log)
      ∧ Multimap.ordered fm1.m_returnDescriptors
      ∧ fm1.m_callDescriptors = fm.m_callDescriptors
      ∧ fm1.m_returnDescriptors.filter (retMatches sid cr3 esp)
          = fm.m_returnDescriptors.filter (retMatches sid cr3 esp)
            ++ (laterPending fm sid cr3 esp evs).map (fun d => (esp, d)) := by
  induction evs generalizing fm with
  | nil => exact ⟨fm, [], rfl, h, rfl, by simp [laterPending]⟩
  | cons ev evs ih =>
    have hrest : ∀ e ∈ evs, ∀ st, e = Event.ret st →
        ¬ (st.esp = some esp ∧ st.id = sid ∧ st.cr3 = cr3) :=
      fun e he => hevs e (List.mem_cons_of_mem _ he)
    cases ev with
    | call st =>
      obtain ⟨fm2, log2, k1, k2, k3, k4⟩ := ih (slotCall fm st).1 (slotCall_ordered fm st h) hrest
      have hc := slotCall_callDescriptors fm st
      refine ⟨fm2, (slotCall fm st).2 ++ log2, ?_, k2, k3.trans hc, ?_⟩
      · simp only [run, onEvent, k1, Option.map_some']
      · rw [k4, slotCall_matching fm st sid cr3 esp h, laterPending_congr _ fm sid cr3 esp evs hc]
        simp only [laterPending, List.map_append, List.append_assoc]
    | ret st =>
      obtain ⟨fm1, log1, x1, h1, h2, h3, h4⟩ :=
        onEvent_keeps_matching fm (Event.ret st) sid cr3 esp h (hevs _ (List.mem_cons_self _ _))
      have hx1 : x1 = [] := by
        cases hesp : st.esp with
        | none =>
          have hev : onEvent fm (Event.ret st)
              = some (fm, [Notification.symbolicEspRet st.eip st.cr3]) := by
            simp only [onEvent, slotRet, hesp]
          rw [hev] at h1
          simp only [Option.some.injEq, Prod.mk.injEq] at h1
          rw [← h1.1] at h4
          have hl := congrArg List.length h4
          simp only [List.length_append] at hl
          exact List.length_eq_zero.mp (by omega)
        | some esp1 =>
          have hfuel : (fm.m_returnDescriptors.filter (retMatches st.id st.cr3 esp1)).length
              < fm.m_returnDescriptors.length + 1 :=
            Nat.lt_succ_of_le (List.length_filter_le _ _)
          have hev : onEvent fm (Event.ret st) = _ := slotRet_eq fm st esp1 _ hesp hfuel
          rw [hev] at h1
          simp only [Option.some.injEq, Prod.mk.injEq] at h1
          rw [← h1.1] at h4
          have hle : ((fm.m_returnDescriptors.filter
              (fun e => !retMatches st.id st.cr3 esp1 e)).filter (retMatches sid cr3 esp)).length
              ≤ (fm.m_returnDescriptors.filter (retMatches sid cr3 esp)).length := by
            rw [List.filter_filter]
            apply List.Sublist.length_le
            apply List.monotone_filter_right
            intro e he
            simp only [Bool.and_eq_true] at he
            exact he.1
          have hl := congrArg List.length h4
          simp only [List.length_append] at hl
          exact List.length_eq_zero.mp (by omega)
      subst hx1
      obtain ⟨fm2, log2, k1, k2, k3, k4⟩ := ih fm1 h2 hrest
      refine ⟨fm2, log1 ++ log2, ?_, k2, k3.trans h3, ?_⟩
      · simp only [run, h1, k1, Option.map_some']
      · rw [k4, h4, List.append_nil, laterPending_congr _ fm sid cr3 esp evs h3]
        simp only [laterPending]

end FunctionMonitor

namespace FunctionMonitor

/-- A call event with concrete stack pointer `esp`, on a pending-return table
ordered by key, followed by any events that are not a return with the same
state, `cr3` and stack pointer, and then by such a return.  The events in
between are all handled and the entries made by the call stay pending; the
return (given more fuel than the table has entries) notifies, in this order,
the return slots pending under that key before the call, the return slots
attached during the call in attachment order, and the return slots attached by
the calls in between that have the same state, `cr3` and stack pointer; no
matching entry remains, and a second identical return notifies nothing and
returns the monitor unchanged. -/
theorem slotCall_then_first_slotRet (fm : FunctionMonitor) (call ret : S2EExecutionState)
    (evs : List Event) (esp : Nat) (hesp : call.esp = some esp) (hret : ret.esp = some esp)
    (hid : ret.id = call.id) (hcr3 : ret.cr3 = call.cr3)
    (hord : Multimap.ordered fm.m_returnDescriptors)
    (hevs : ∀ ev ∈ evs, ∀ st, ev = Event.ret st →
      ¬ (st.esp = some esp ∧ st.id = call.id ∧ st.cr3 = call.cr3)) :
    ∃ fm1 log1 fm2,
      run (slotCall fm call).1 evs = some (fm1, log1)
        ∧ (∀ d ∈ newReturnDescriptors fm call, (esp, d) ∈ fm1.m_returnDescriptors)
        ∧ (∀ fuel, fm1.m_returnDescriptors.length < fuel →
            slotRet fuel fm1 ret
                = some (fm2,
                    (fm.m_returnDescriptors.filter (retMatches call.id call.cr3 esp)).flatMap
                        (fun e => e.2.signal.map Notification.ret)
                      ++ (attachedDuringCall fm call).map Notification.ret
                      ++ (laterPending fm call.id call.cr3 esp evs).flatMap
                          (fun d => d.signal.map Notification.ret))
              ∧ slotRet fuel fm2 ret = some (fm2, []))
        ∧ fm2.m_returnDescriptors.filter (retMatches call.id call.cr3 esp) = []
        ∧ fm2.m_callDescriptors = fm.m_callDescriptors := by
  have hmatch : (slotCall fm call).1.m_returnDescriptors.filter (retMatches call.id call.cr3 esp)
      = fm.m_returnDescriptors.filter (retMatches call.id call.cr3 esp)
          ++ List.map (fun v => (esp, v)) (newReturnDescriptors fm call) := by
    rw [slotCall_matching fm call call.id call.cr3 esp hord, if_pos ⟨hesp, rfl, rfl⟩]
  have hlog : (List.map (fun v => (esp, v)) (newReturnDescriptors fm call)).flatMap
      (fun e => e.2.signal.map Notification.ret)
      = (attachedDuringCall fm call).map Notification.ret := by
    rw [← newReturnDescriptors_signals]
    simp only [List.flatMap_map, List.map_flatMap]
  obtain ⟨fm1, log1, hrun, _, hcalls1, hmatch1⟩ :=
    run_matching evs (slotCall fm call).1 call.id call.cr3 esp
      (slotCall_ordered fm call hord) hevs
  rw [laterPending_congr _ fm _ _ _ _ (slotCall_callDescriptors fm call)] at hmatch1
  have hclean : (fm1.m_returnDescriptors.filter (fun e => !retMatches call.id call.cr3 esp e)).filter
      (retMatches call.id call.cr3 esp) = [] := by
    rw [List.filter_eq_nil_iff]
    intro e he
    simp only [List.mem_filter, Bool.not_eq_true'] at he
    simp [he.2]
  refine ⟨fm1, log1,
    { fm1 with m_returnDescriptors :=
        (fm1.m_returnDescriptors.filter (fun e => !retMatches call.id call.cr3 esp e)) },
    hrun, ?_, ?_, hclean, hcalls1.trans (slotCall_callDescriptors fm call)⟩
  · intro d hd
    have hmem : (esp, d) ∈ fm1.m_returnDescriptors.filter (retMatches call.id call.cr3 esp) := by
      rw [hmatch1, hmatch]
      exact List.mem_append_left _
        (List.mem_append_right _ (List.mem_map.mpr ⟨d, hd, rfl⟩))
    exact (List.mem_filter.mp hmem).1
  · intro fuel hfuel
    have hfuel1 : (fm1.m_returnDescriptors.filter (retMatches ret.id ret.cr3 esp)).length < fuel :=
      Nat.lt_of_le_of_lt (List.length_filter_le _ _) hfuel
    constructor
    · rw [slotRet_eq fm1 ret esp fuel hret hfuel1, hid, hcr3, hmatch1, hmatch]
      simp only [List.flatMap_append, emitRet, hlog, List.flatMap_map]
    · rw [slotRet_eq _ ret esp fuel hret
        (by rw [hid, hcr3]
            show ((fm1.m_returnDescriptors.filter
              (fun e => !retMatches call.id call.cr3 esp e)).filter
              (retMatches call.id call.cr3 esp)).length < fuel
            rw [hclean]; exact Nat.zero_lt_of_lt hfuel)]
      rw [hid, hcr3]
      show some (({ fm1 with m_returnDescriptors :=
          ((fm1.m_returnDescriptors.filter (fun e => !retMatches call.id call.cr3 esp e)).filter
            (fun e => !retMatches call.id call.cr3 esp e)) } : FunctionMonitor),
          ((fm1.m_returnDescriptors.filter (fun e => !retMatches call.id call.cr3 esp e)).filter
            (retMatches call.id call.cr3 esp)).flatMap (fun e => emitRet e.2.signal)) = _
      rw [hclean, List.filter_filter]
      simp only [Bool.and_self, List.flatMap_nil]

/-- The scenario of the spec with the events of `interveningEvents` between the
call and its return: the return notifies the return slot of `slotA`, then that
of `slotB`, each once, and a second identical return notifies nothing. -/
theorem scenario_call_events_return :
    ((run (slotCall monitorAB callEvent).1 interveningEvents).bind
        (fun r => slotRet 5 r.1 retEvent)).map (fun r => r.2)
        = some [Notification.ret 10, Notification.ret 20]
      ∧ (((run (slotCall monitorAB callEvent).1 interveningEvents).bind
          (fun r => slotRet 5 r.1 retEvent)).bind
            (fun r => slotRet 5 r.1 retEvent)).map (fun r => r.2)
          = some [] := by
  decide

end FunctionMonitor
